import Mathlib

/-!
A verification development for the `stfo-colbert` repository.

The Python sources are shallowly embedded as Lean functions over `List Char`
(strings), `ℚ` (scores; exact arithmetic standing in for the comparison and
field structure of the floats used by the code), `ℕ`/`ℤ` (integers) and
`Except Unit` (fallible calls).  External collaborators (the encoder model,
the PLAID index engine, pymupdf extraction, the filesystem) are abstracted as
function parameters, exactly at the call boundaries the code uses them.

Functions that advance a cursor by more than one element (`str.split`,
`str.replace`) are embedded with an explicit fuel argument so that they are
structurally recursive and evaluate inside the kernel; the public wrappers
instantiate the fuel with the input length, and fuel-irrelevance lemmas show
the choice does not matter.
-/

/-- Decidable equality of `Except` results, used to evaluate the embedded
fallible calls on concrete inputs. -/
instance {ε α : Type} [DecidableEq ε] [DecidableEq α] :
    DecidableEq (Except ε α) := fun a b =>
  match a, b with
  | .error e1, .error e2 =>
    if h : e1 = e2 then .isTrue (by rw [h]) else .isFalse (by simp [h])
  | .error _, .ok _ => .isFalse (by simp)
  | .ok _, .error _ => .isFalse (by simp)
  | .ok v1, .ok v2 =>
    if h : v1 = v2 then .isTrue (by rw [h]) else .isFalse (by simp [h])

/-! ## Python string primitives (`str.strip`, `str.split`, `str.replace`) -/

/-- Whitespace as recognised by Python's `str.strip()` (restricted to the
ASCII whitespace characters, which is all the repository's tests exercise). -/
def isPySpace (ch : Char) : Bool :=
  ch = ' ' || ch = '\t' || ch = '\n' || ch = '\r' || ch = '\x0b' || ch = '\x0c'

/-- Python `s.strip()`: drop leading and trailing whitespace. -/
def pyStrip (s : List Char) : List Char :=
  ((s.dropWhile isPySpace).reverse.dropWhile isPySpace).reverse

/-- Fuelled core of Python `s.split(sep)` for a non-empty separator
`c :: ds`: scan left to right, splitting at each leftmost non-overlapping
occurrence of the separator.  `fuel ≥ s.length` guarantees the fuel is never
exhausted. -/
def splitOnF (c : Char) (ds : List Char) : Nat → List Char → List (List Char)
  | _, [] => [[]]
  | 0, a :: s => [a :: s]
  | fuel + 1, a :: s =>
    if c :: ds <+: a :: s then
      [] :: splitOnF c ds fuel (s.drop ds.length)
    else
      match splitOnF c ds fuel s with
      | [] => [[a]]
      | p :: ps => (a :: p) :: ps

/-- Python `s.split(c :: ds)` (non-empty separator). -/
def splitOn (c : Char) (ds : List Char) (s : List Char) : List (List Char) :=
  splitOnF c ds s.length s

/-- Fuelled core of Python `s.replace(pat, rep)`: replace each leftmost
non-overlapping occurrence of `pat`, scanning left to right.  Only used with
the non-empty delimiter pattern. -/
def replaceAllF (pat rep : List Char) : Nat → List Char → List Char
  | _, [] => []
  | 0, a :: s => a :: s
  | fuel + 1, a :: s =>
    if pat <+: a :: s then
      rep ++ replaceAllF pat rep fuel ((a :: s).drop pat.length)
    else
      a :: replaceAllF pat rep fuel s

/-- Python `s.replace(pat, rep)` (for non-empty `pat`). -/
def pyReplace (pat rep s : List Char) : List Char :=
  replaceAllF pat rep s.length s

/-! ## `stfo_colbert` root module and `dataset.py` -/

/-- Modelled from the spec: the module-level `DELIMITER` constant of the
`stfo_colbert` package root module, which is not among the provided source
files.  The spec's end-to-end scenario fixes it as `"\n\n--------\n\n"`
(and `dataset._clean_delimiter` replaces it with `"\n\n++++++++\n\n"`). -/
def dlm : List Char := "\n\n--------\n\n".data

/-- The tail of `dlm` after its first character (so `dlm = '\n' :: dlmTail`),
used to pass the delimiter to `splitOn` in nonempty-by-construction form. -/
def dlmTail : List Char := "\n--------\n\n".data

/-- The replacement marker `"\n\n++++++++\n\n"` used by
`dataset._clean_delimiter`. -/
def dlmMarker : List Char := "\n\n++++++++\n\n".data

/-- `dataset._clean_delimiter`: `text.replace(DELIMITER, "\n\n++++++++\n\n")`. -/
def cleanDelimiter (s : List Char) : List Char :=
  pyReplace dlm dlmMarker s

/-- The delimiter `d` occurs in `s` at position `i`. -/
def occursAt (d s : List Char) (i : Nat) : Prop :=
  d <+: s.drop i

instance (d s : List Char) (i : Nat) : Decidable (occursAt d s i) := by
  unfold occursAt; infer_instance

/-- The delimiter `d` occurs somewhere in `s` (as a contiguous subsequence). -/
def containsSeq (d s : List Char) : Prop :=
  ∃ i, occursAt d s i

/-- No two occurrences of `d` in `s` overlap: occurrences strictly ordered
in position are separated by at least the length of `d`. -/
def noOverlappingDelims (d s : List Char) : Prop :=
  ∀ i j, occursAt d s i → occursAt d s j → i < j → i + d.length ≤ j

/-- `noOverlappingDelims` is decidable: occurrences beyond the length of `s`
force `d = []`, for which the condition is trivial, so a bounded check
suffices. -/
instance (d s : List Char) : Decidable (noOverlappingDelims d s) :=
  decidable_of_iff (∀ i, i < s.length → ∀ j, j < s.length →
      occursAt d s i → occursAt d s j → i < j → i + d.length ≤ j) (by
    constructor
    · intro h i j hi hj hij
      by_cases his : i < s.length
      · by_cases hjs : j < s.length
        · exact h i his j hjs hi hj hij
        · have : s.drop j = [] := List.drop_eq_nil_of_le (le_of_not_lt hjs)
          obtain ⟨t, ht⟩ := hj
          rw [this] at ht
          have hd : d = [] := (List.append_eq_nil.mp ht).1
          simp [hd]
          omega
      · have : s.drop i = [] := List.drop_eq_nil_of_le (le_of_not_lt his)
        obtain ⟨t, ht⟩ := hi
        rw [this] at ht
        have hd : d = [] := (List.append_eq_nil.mp ht).1
        simp [hd]
        omega
    · intro h i _ j _ hi hj hij
      exact h i j hi hj hij)

/-- `strip`-then-drop-empties post-processing applied by
`_stream_documents_from_delimited_text` to each completed split part. -/
def emitParts (parts : List (List Char)) : List (List Char) :=
  (parts.map pyStrip).filter (fun p => !p.isEmpty)

/-- `dataset._stream_documents_from_delimited_text`, one loop iteration per
text chunk: append the chunk to the residual buffer, split the buffer on the
delimiter, keep the last part as the new buffer, and yield the stripped
non-empty complete parts; at end of input yield the stripped buffer if
non-empty. -/
def streamSplitGo (c : Char) (ds : List Char) (buffer : List Char) :
    List (List Char) → List (List Char)
  | [] => if (pyStrip buffer).isEmpty then [] else [pyStrip buffer]
  | ch :: rest =>
    let parts := splitOn c ds (buffer ++ ch)
    emitParts parts.dropLast ++ streamSplitGo c ds (parts.getLastD []) rest

/-- `dataset._stream_documents_from_delimited_text` run over a whole chunk
iterator (the buffer starts empty). -/
def streamDocs (c : Char) (ds : List Char) (chunks : List (List Char)) :
    List (List Char) :=
  streamSplitGo c ds [] chunks

/-- The naive reference splitter: split the whole text at once, strip each
part, drop the empty parts.  This is the specification-side description of
what the streaming splitter must compute. -/
def naiveSplitDocs (c : Char) (ds : List Char) (text : List Char) :
    List (List Char) :=
  emitParts (splitOn c ds text)

/-! ## Decimal rendering of chunk ids (Python `str(int)`) -/

/-- Fuelled digit expansion of a natural number (most significant digit
first); `fuel ≥ n` suffices. -/
def natStrAux : Nat → Nat → List Char
  | 0, n => [Nat.digitChar n]
  | fuel + 1, n =>
    if n < 10 then [Nat.digitChar n]
    else natStrAux fuel (n / 10) ++ [Nat.digitChar (n % 10)]

/-- Python `str(n)` for a natural number `n`: its decimal digit string. -/
def natStr (n : Nat) : List Char := natStrAux n n

/-- Decimal parse-back of a digit string, used to show `natStr` is
injective. -/
def natVal (s : List Char) : Nat :=
  s.foldl (fun acc ch => acc * 10 + (ch.toNat - 48)) 0

/-! ## `indexer.py`: collection writer (Text Store) and `build_index` -/

/-- `CollectionDB` state: SQLite `INSERT OR REPLACE` on the key-unique
`collection(doc_id, text)` table, modelled as an association list in
insertion order. -/
def dbUpsert (db : List (List Char × List Char)) (k v : List Char) :
    List (List Char × List Char) :=
  if db.any (fun e => decide (e.1 = k)) then
    db.map (fun e => if e.1 = k then (k, v) else e)
  else db ++ [(k, v)]

/-- `CollectionDB.add_batch`: upsert every item of the batch in order. -/
def addBatch (db : List (List Char × List Char))
    (items : List (List Char × List Char)) : List (List Char × List Char) :=
  items.foldl (fun d it => dbUpsert d it.1 it.2) db

/-- `CollectionWriter` state: the pending batch, the committed database
contents, the batch size threshold and the running total of saved
documents. -/
structure WriterState where
  batchSize : Nat
  batch : List (List Char × List Char)
  db : List (List Char × List Char)
  totalSaved : Nat
deriving DecidableEq

/-- A freshly opened `CollectionWriter` over an empty collection database. -/
def freshWriter (batchSize : Nat) : WriterState :=
  ⟨batchSize, [], [], 0⟩

/-- Flush of a full (or final) batch: `db.add_batch(batch)`, `db.commit()`,
`total_saved += len(batch)`, `batch.clear()`. -/
def writerFlush (w : WriterState) : WriterState :=
  ⟨w.batchSize, [], addBatch w.db w.batch, w.totalSaved + w.batch.length⟩

/-- `CollectionWriter.add_documents(documents, start_idx)`: append
`(str(start_idx + offset), doc)` for each document, flushing whenever the
batch reaches the batch size. -/
def writerAddDocuments (w : WriterState) :
    List (List Char) → Nat → WriterState
  | [], _ => w
  | d :: ds, startIdx =>
    let w1 : WriterState :=
      ⟨w.batchSize, w.batch ++ [(natStr startIdx, d)], w.db, w.totalSaved⟩
    let w2 := if w.batchSize ≤ w1.batch.length then writerFlush w1 else w1
    writerAddDocuments w2 ds (startIdx + 1)

/-- `CollectionWriter.finalize`: flush the remaining partial batch. -/
def writerFinalize (w : WriterState) : WriterState :=
  if w.batch.isEmpty then w else writerFlush w

/-- All pairs the writer has accepted, flushed or still pending. -/
def writerContent (w : WriterState) : List (List Char × List Char) :=
  w.db ++ w.batch

/-- Which of the two fallible collaborator calls inside a `build_index`
window raised (`model.encode` or `index.add_documents`). -/
inductive BuildStage
  | encode
  | indexAdd
deriving DecidableEq

/-- The information surfaced when `build_index` aborts: the two
`RuntimeError` messages carry the chunk number and the index path; for an
encode failure the `logger.error` call directly before the raise additionally
carries the 1-based document range of the failed window (`docRange`); for an
index-add failure no document range is surfaced (`docRange = none`). -/
structure BuildErr where
  stage : BuildStage
  chunkNumber : Nat
  docRange : Option (Nat × Nat)
  indexPath : List Char
deriving DecidableEq

/-- The observable outcome of a `build_index` run: the `(id, embedding)`
pairs committed to the index engine, the collection writer state, every
argument list passed to `model.encode` (in call order), the abort error if
any, and the total of fully processed documents. -/
structure BuildOut (Emb : Type) where
  commits : List (List Char × Emb)
  writer : WriterState
  encCalls : List (List (List Char))
  err : Option BuildErr
  total : Nat
deriving DecidableEq

/-- The document loop of `indexer.build_index`.  `encF` abstracts
`model.encode` on a window of documents, `ixF` abstracts
`index.add_documents` on the paired `(id, embedding)` lists, `cs` is
`encoding_chunk_size` and `ipath` is `index_path`.  State mirrors the local
variables: the accumulation buffers `doc_chunk`/`id_chunk`, `total_processed`
(`tp`), `chunk_number`, the committed index entries, the collection writer,
and the encode-call log.  A raise from either collaborator aborts the run,
leaving prior commits and writer state untouched. -/
def buildGo {Emb : Type} (encF : List (List Char) → Except Unit (List Emb))
    (ixF : List (List Char × Emb) → Except Unit Unit) (cs : Nat)
    (ipath : List Char) (docIdx tp chunkNo : Nat)
    (docChunk : List (List Char)) (idChunk : List (List Char))
    (ix : List (List Char × Emb)) (w : WriterState)
    (calls : List (List (List Char))) : List (List Char) → BuildOut Emb
  | [] =>
    if docChunk.isEmpty then ⟨ix, w, calls, none, tp⟩
    else
      match encF docChunk with
      | .error _ =>
        ⟨ix, w, calls ++ [docChunk],
          some ⟨.encode, chunkNo + 1, some (tp + 1, tp + docChunk.length),
            ipath⟩, tp⟩
      | .ok embs =>
        match ixF (idChunk.zip embs) with
        | .error _ =>
          ⟨ix, w, calls ++ [docChunk],
            some ⟨.indexAdd, chunkNo + 1, none, ipath⟩, tp⟩
        | .ok _ =>
          ⟨ix ++ idChunk.zip embs,
            writerAddDocuments w docChunk (tp + docChunk.length - docChunk.length),
            calls ++ [docChunk], none, tp + docChunk.length⟩
  | d :: rest =>
    let dc := docChunk ++ [d]
    let ic := idChunk ++ [natStr docIdx]
    if cs ≤ dc.length then
      match encF dc with
      | .error _ =>
        ⟨ix, w, calls ++ [dc],
          some ⟨.encode, chunkNo + 1, some (tp + 1, tp + dc.length), ipath⟩,
          tp⟩
      | .ok embs =>
        match ixF (ic.zip embs) with
        | .error _ =>
          ⟨ix, w, calls ++ [dc],
            some ⟨.indexAdd, chunkNo + 1, none, ipath⟩, tp⟩
        | .ok _ =>
          buildGo encF ixF cs ipath (docIdx + 1) (tp + dc.length)
            (chunkNo + 1) [] [] (ix ++ ic.zip embs)
            (writerAddDocuments w dc (tp + dc.length - dc.length))
            (calls ++ [dc]) rest
    else
      buildGo encF ixF cs ipath (docIdx + 1) tp chunkNo dc ic ix w calls rest

/-- `indexer.build_index` on a stream of chunk texts, starting from a fresh
loop state and the given collection writer. -/
def buildIndexRun {Emb : Type}
    (encF : List (List Char) → Except Unit (List Emb))
    (ixF : List (List Char × Emb) → Except Unit Unit) (cs : Nat)
    (ipath : List Char) (w : WriterState) (docs : List (List Char)) :
    BuildOut Emb :=
  buildGo encF ixF cs ipath 0 0 0 [] [] [] w [] docs

/-! ### Specification-side helpers for the ingestion theorems -/

/-- The accumulation windows `build_index` forms from a document stream:
the buffer is flushed as soon as its length reaches `cs`, and the final
partial buffer forms a last window. -/
def windowsGo (cs : Nat) (acc : List (List Char)) :
    List (List Char) → List (List (List Char))
  | [] => if acc.isEmpty then [] else [acc]
  | a :: l =>
    if cs ≤ (acc ++ [a]).length then (acc ++ [a]) :: windowsGo cs [] l
    else windowsGo cs (acc ++ [a]) l

/-- The chunk ids assigned to a window starting at global position
`start`. -/
def idsFrom (start : Nat) (wnd : List (List Char)) : List (List Char) :=
  (List.range wnd.length).map (fun o => natStr (start + o))

/-- The `(id, text)` pairs for documents numbered from `start`. -/
def textPairs (start : Nat) (docs : List (List Char)) :
    List (List Char × List Char) :=
  (List.enumFrom start docs).map (fun p => (natStr p.1, p.2))

/-- The `(id, embedding)` pairs for documents numbered from `start` under a
per-document encoder. -/
def embPairs {Emb : Type} (enc : List Char → Emb) (start : Nat)
    (docs : List (List Char)) : List (List Char × Emb) :=
  (List.enumFrom start docs).map (fun p => (natStr p.1, enc p.2))

/-- Specification-side characterisation of `build_index` at window
granularity: process each accumulation window through encode, index-add and
collection write, aborting at the first collaborator failure with the
surfaced error information. -/
def windowedRun {Emb : Type}
    (encF : List (List Char) → Except Unit (List Emb))
    (ixF : List (List Char × Emb) → Except Unit Unit) (ipath : List Char)
    (start cn : Nat) (ix : List (List Char × Emb)) (w : WriterState)
    (calls : List (List (List Char))) :
    List (List (List Char)) → BuildOut Emb
  | [] => ⟨ix, w, calls, none, start⟩
  | wnd :: rest =>
    match encF wnd with
    | .error _ =>
      ⟨ix, w, calls ++ [wnd],
        some ⟨.encode, cn + 1, some (start + 1, start + wnd.length), ipath⟩,
        start⟩
    | .ok embs =>
      match ixF ((idsFrom start wnd).zip embs) with
      | .error _ =>
        ⟨ix, w, calls ++ [wnd],
          some ⟨.indexAdd, cn + 1, none, ipath⟩, start⟩
      | .ok _ =>
        windowedRun encF ixF ipath (start + wnd.length) (cn + 1)
          (ix ++ (idsFrom start wnd).zip embs)
          (writerAddDocuments w wnd start) (calls ++ [wnd]) rest

/-- A window (starting at global document position `start`) is processed
without a collaborator failure. -/
def okWindow {Emb : Type} (encF : List (List Char) → Except Unit (List Emb))
    (ixF : List (List Char × Emb) → Except Unit Unit) (start : Nat)
    (wnd : List (List Char)) : Prop :=
  ∃ embs, encF wnd = .ok embs ∧ ixF ((idsFrom start wnd).zip embs) = .ok ()

/-- A window's processing fails: either the encode call raises, or it
succeeds and the index-add call raises. -/
def badWindow {Emb : Type} (encF : List (List Char) → Except Unit (List Emb))
    (ixF : List (List Char × Emb) → Except Unit Unit) (start : Nat)
    (wnd : List (List Char)) : Prop :=
  (∃ er, encF wnd = .error er) ∨
    (∃ embs er, encF wnd = .ok embs ∧
      ixF ((idsFrom start wnd).zip embs) = .error er)

/-- The global document position at which the `j`-th window starts. -/
def winStart (ws : List (List (List Char))) (j : Nat) : Nat :=
  ((ws.take j).map List.length).sum

/-- The index commits contributed by a list of successfully processed
windows starting at global position `start`. -/
def okCommitsPre {Emb : Type}
    (encF : List (List Char) → Except Unit (List Emb)) (start : Nat) :
    List (List (List Char)) → List (List Char × Emb)
  | [] => []
  | wnd :: rest =>
    (idsFrom start wnd).zip ((encF wnd).toOption.getD []) ++
      okCommitsPre encF (start + wnd.length) rest

/-! ## `server.py`: result normalisation, softmax, ordering, cache,
validation -/

/-- One entry of the ranked response assembled by `_results_to_topk`
(for the list-of-`(id, score)`-pairs engine result shape). -/
structure SearchResult where
  pid : List Char
  rank : Nat
  score : ℚ
  text : Option (List Char)
  prob : Option ℚ
deriving DecidableEq

/-- Python string comparison (lexicographic on code points), as used by the
`pid` tie-break of the final sort key. -/
def lexLe : List Char → List Char → Bool
  | [], _ => true
  | _ :: _, [] => false
  | a :: as, b :: bs =>
    if a < b then true
    else if b < a then false
    else lexLe as bs

/-- The final sort's key order `(-score, pid)`: descending score, ties by
ascending id. -/
def resLe (x y : SearchResult) : Bool :=
  decide (y.score < x.score) || (decide (x.score = y.score) && lexLe x.pid y.pid)

/-- The softmax block of `_results_to_topk` over the returned scores only:
exponentiate (the code's `math.exp` abstracted as `expF`), normalise by the
sum if it is positive, otherwise fall back to the uniform distribution. -/
def softmaxProbs (expF : ℚ → ℚ) (scores : List ℚ) : List ℚ :=
  let probs := scores.map expF
  let s := probs.sum
  if 0 < s then probs.map (fun p => p / s)
  else List.replicate probs.length (1 / (probs.length : ℚ))

/-- The `zip(topk, probs)` assignment writing `item["prob"] = prob`. -/
def attachProbs (items : List SearchResult) (probs : List ℚ) :
    List SearchResult :=
  List.zipWith (fun it pr => { it with prob := some pr }) items probs ++
    items.drop probs.length

/-- `server._results_to_topk` for the list-of-`(id, score)`-pairs result
shape: build the ranked entries in engine order, attach the text-store
lookup and softmax probabilities, then sort by `(-score, pid)` (Python's
stable `list.sort`, embedded as the stable `mergeSort`). -/
def resultsToTopk (expF : ℚ → ℚ)
    (collection : Option (List Char → Option (List Char)))
    (inner : List (List Char × ℚ)) : List SearchResult :=
  let topk := inner.enum.map (fun p =>
    ({ pid := p.2.1, rank := p.1, score := p.2.2,
       text := match collection with
               | none => none
               | some col => col p.2.1,
       prob := none } : SearchResult))
  let allScores := inner.map (fun it => it.2)
  let withProbs :=
    if allScores.isEmpty then topk
    else attachProbs topk (softmaxProbs expF allScores)
  withProbs.mergeSort resLe

/-- The `(id, score)` projection of a ranked entry. -/
def pidScore (r : SearchResult) : List Char × ℚ := (r.pid, r.score)

/-- The key order on bare `(id, score)` pairs: descending score, ties broken
by ascending id.  Antisymmetric, which makes the sorted projection of the
ranked list unique. -/
def pairDescLe (p q : List Char × ℚ) : Prop :=
  q.2 < p.2 ∨ (p.2 = q.2 ∧ lexLe p.1 q.1 = true)

/-- The `functools.lru_cache` state guarding `cached_query`: bounded
capacity, entries kept most-recently-used first. -/
structure LruCache (K V : Type) where
  capacity : Nat
  entries : List (K × V)

/-- Outcome of one cached call: the returned value, the new cache state,
and whether the underlying function (encoder + index engine) was invoked. -/
structure LruResult (K V : Type) where
  value : V
  state : LruCache K V
  invoked : Bool

/-- One call through `functools.lru_cache`: on a hit return the cached value
and move the key to most-recently-used without invoking `f`; on a miss
invoke `f`, insert at the front and evict beyond capacity (least recently
used last). -/
def lruGet {K V : Type} [DecidableEq K] (f : K → V) (st : LruCache K V)
    (k : K) : LruResult K V :=
  match st.entries.find? (fun e => decide (e.1 = k)) with
  | some e =>
    ⟨e.2, ⟨st.capacity, (k, e.2) :: st.entries.filter (fun e2 => decide (e2.1 ≠ k))⟩,
      false⟩
  | none =>
    ⟨f k, ⟨st.capacity, ((k, f k) :: st.entries).take st.capacity⟩, true⟩

/-- A fresh `lru_cache` of the given capacity (the code uses
`maxsize=1024`). -/
def emptyLru (K V : Type) (cap : Nat) : LruCache K V :=
  ⟨cap, []⟩

/-- The declared validation of the `/search` endpoint:
`query: str = Query(..., min_length=1)` and
`k: int = Query(10, ge=1, le=100)`.  A missing or empty query, or an
out-of-range `k`, is a validation error; an omitted `k` defaults to 10. -/
def validateSearch (query : Option (List Char)) (k : Option ℤ) :
    Except Unit (List Char × ℤ) :=
  match query with
  | none => .error ()
  | some q =>
    if q.length < 1 then .error ()
    else
      match k with
      | none => .ok (q, 10)
      | some kv => if kv < 1 ∨ 100 < kv then .error () else .ok (q, kv)

/-- The `/search` request path: validation happens before `cached_query`
(abstracted as `f`); the returned number counts encoder/index invocations. -/
def searchEndpoint {V : Type} (f : List Char → ℤ → V)
    (query : Option (List Char)) (k : Option ℤ) : Except Unit V × Nat :=
  match validateSearch query k with
  | .error _ => (.error (), 0)
  | .ok qk => (.ok (f qk.1 qk.2), 1)

/-! ## `dataset.py`: directory ingestion -/

/-- Dispatch class of an enumerated file, by extension:
`.txt`/`.md`, the pymupdf-handled rich formats, or an ignored extension. -/
inductive FileKind
  | txtmd
  | rich
  | other
deriving DecidableEq

/-- An enumerated source file: its dispatch class and the outcome of
extracting its raw text (reading and pymupdf extraction abstracted as an
`Except`). -/
structure SrcFile where
  kind : FileKind
  content : Except Unit (List Char)
deriving DecidableEq

/-- `dataset._read_document`: the whole extraction is wrapped in
`try/except`; a failure is logged and contributes the empty string. -/
def readDocumentR (r : Except Unit (List Char)) : List Char :=
  match r with
  | .ok t => cleanDelimiter t
  | .error _ => []

/-- `dataset._read_txt_or_md`: no `try/except` — a read failure
propagates. -/
def readTxtOrMdR (r : Except Unit (List Char)) : Except Unit (List Char) :=
  r.map cleanDelimiter

/-- The cache-writing loop of `prepare_from_directory`: process the
enumerated files in order, collecting the stripped non-empty extracted
texts that are written (delimiter-joined) to the cache.  A propagating
extraction failure (only possible for `.txt`/`.md` files) aborts the loop;
the outer `except` logs it and keeps the partially written cache, so the
second component records the abort and the first the texts written before
it. -/
def scanFiles : List SrcFile → List (List Char) × Option Unit
  | [] => ([], none)
  | f :: rest =>
    match f.kind with
    | .other => scanFiles rest
    | .rich =>
      let t := pyStrip (readDocumentR f.content)
      let r := scanFiles rest
      (if t.isEmpty then r.1 else t :: r.1, r.2)
    | .txtmd =>
      match readTxtOrMdR f.content with
      | .error e => ([], some e)
      | .ok t0 =>
        let t := pyStrip t0
        let r := scanFiles rest
        (if t.isEmpty then r.1 else t :: r.1, r.2)

/-- Iterating the dataset built over a cache containing the given texts:
the cache holds the delimiter-join, and the streaming splitter over it
equals the naive split (the chunked `f.read(8192)` stream and the one-shot
read agree by `streamDocs_eq_naive`). -/
def datasetOfTexts (ts : List (List Char)) : List (List Char) :=
  naiveSplitDocs '\n' dlmTail (List.intercalate dlm ts)

/-- `prepare_from_directory`, observed through one run of the returned
dataset's document iterator.  When the cache artifact exists, the
`try/except` around the cache branch wraps only the construction of the
iterator closure and the `return` — neither can raise — so the dataset
streams the cache and a cache read failure surfaces at iteration time
(`cacheRead` is the outcome of that lazy read); the `except` fallback to
re-extraction is unreachable.  Without a cache, the directory is scanned and
the dataset streams the freshly written cache. -/
def prepareFromDirectoryIter (cacheExists : Bool)
    (cacheRead : Except Unit (List Char)) (files : List SrcFile) :
    Except Unit (List (List Char)) :=
  if cacheExists then
    cacheRead.map (fun content => naiveSplitDocs '\n' dlmTail content)
  else
    .ok (datasetOfTexts (scanFiles files).1)

/-- Specification-side description of a completed directory scan: every
file's contribution, in enumeration order — `.txt`/`.md` files contribute
their cleaned text, rich files their caught-to-empty extraction, ignored
extensions nothing; empty (stripped) contributions are dropped. -/
def extractedTexts : List SrcFile → List (List Char)
  | [] => []
  | f :: rest =>
    match f.kind with
    | .other => extractedTexts rest
    | .rich =>
      let t := pyStrip (readDocumentR f.content)
      if t.isEmpty then extractedTexts rest else t :: extractedTexts rest
    | .txtmd =>
      let t := pyStrip (cleanDelimiter (f.content.toOption.getD []))
      if t.isEmpty then extractedTexts rest else t :: extractedTexts rest

/-! # Theorems -/

/-! ## Generic list helpers -/

/-- A prefix of `u` is a prefix of `u ++ v`. -/
theorem isPre_append_right {p u v : List Char} (h : p <+: u) : p <+: u ++ v := by
  obtain ⟨t, rfl⟩ := h
  exact ⟨t ++ v, by simp⟩

/-- A prefix of `u ++ v` no longer than `u` is a prefix of `u`. -/
theorem isPre_of_append {p u v : List Char} (h : p <+: u ++ v)
    (hl : p.length ≤ u.length) : p <+: u := by
  obtain ⟨t, ht⟩ := h
  refine ⟨u.drop p.length, ?_⟩
  have hp : u.take p.length = p := by
    have := congrArg (List.take p.length) ht.symm
    rwa [List.take_append_eq_append_take, List.take_left' rfl,
      Nat.sub_eq_zero_of_le hl, List.take_zero, List.append_nil] at this
  have h3 := List.take_append_drop p.length u
  rwa [hp] at h3

/-- Splitting a prefix of `u ++ v` that is at least as long as `u`:
`u` is a prefix of it, and its remainder is a prefix of `v`. -/
theorem isPre_split {p u v : List Char} (h : p <+: u ++ v)
    (hl : u.length ≤ p.length) : u <+: p ∧ p.drop u.length <+: v := by
  obtain ⟨t, ht⟩ := h
  constructor
  · refine ⟨p.drop u.length, ?_⟩
    have hu : p.take u.length = u := by
      have := congrArg (List.take u.length) ht
      rwa [List.take_append_eq_append_take, List.take_left' rfl,
        Nat.sub_eq_zero_of_le hl, List.take_zero, List.append_nil] at this
    have h3 := List.take_append_drop u.length p
    rwa [hu] at h3
  · refine ⟨t, ?_⟩
    have := congrArg (List.drop u.length) ht
    rwa [List.drop_append_eq_append_drop, List.drop_left,
      Nat.sub_eq_zero_of_le hl, List.drop_zero] at this

/-- A non-empty list decomposes as its `dropLast` followed by its
`getLastD`. -/
theorem dropLast_append_getLastD {α : Type} {l : List α} (d : α)
    (h : l ≠ []) : l.dropLast ++ [l.getLastD d] = l := by
  induction l generalizing d with
  | nil => exact absurd rfl h
  | cons a l ih =>
    cases l with
    | nil => rfl
    | cons b t =>
      simp only [List.dropLast_cons₂, List.getLastD_cons, List.cons_append]
      have h2 := ih a (by simp)
      simp only [List.getLastD_cons] at h2
      exact congrArg (a :: ·) h2

/-! ## The embedded `str.split`: fuel irrelevance and structure -/

/-- The fuel of `splitOnF` is irrelevant once it covers the input length. -/
theorem splitOnF_fuel (c : Char) (ds : List Char) :
    ∀ f1 f2 s, s.length ≤ f1 → s.length ≤ f2 →
      splitOnF c ds f1 s = splitOnF c ds f2 s := by
  intro f1
  induction f1 with
  | zero =>
    intro f2 s h1 _
    have hs : s = [] := List.eq_nil_of_length_eq_zero (Nat.le_zero.mp h1)
    subst hs
    cases f2 <;> rfl
  | succ f1 ih =>
    intro f2 s h1 h2
    cases s with
    | nil => cases f2 <;> rfl
    | cons a s =>
      cases f2 with
      | zero => simp at h2
      | succ f2 =>
        have h1' : s.length ≤ f1 := by simp at h1; omega
        have h2' : s.length ≤ f2 := by simp at h2; omega
        simp only [splitOnF]
        by_cases hp : c :: ds <+: a :: s
        · rw [if_pos hp,
            ih f2 (s.drop ds.length) (by rw [List.length_drop]; omega)
              (by rw [List.length_drop]; omega)]
          rw [if_pos hp]
        · rw [if_neg hp, ih f2 s h1' h2', if_neg hp]

/-- The split of any string is non-empty. -/
theorem splitOnF_ne_nil (c : Char) (ds : List Char) (f : Nat)
    (s : List Char) : splitOnF c ds f s ≠ [] := by
  cases s with
  | nil => cases f <;> simp [splitOnF]
  | cons a s =>
    cases f with
    | zero => simp [splitOnF]
    | succ f =>
      simp only [splitOnF]
      split
      · simp
      · split <;> simp

/-- The split of any string is non-empty. -/
theorem splitOn_ne_nil (c : Char) (ds : List Char) (s : List Char) :
    splitOn c ds s ≠ [] :=
  splitOnF_ne_nil c ds s.length s

/-- One-step unfolding of `splitOn` on a cons cell. -/
theorem splitOn_cons (c : Char) (ds : List Char) (a : Char) (s : List Char) :
    splitOn c ds (a :: s) =
      if c :: ds <+: a :: s then [] :: splitOn c ds (s.drop ds.length)
      else
        match splitOn c ds s with
        | [] => [[a]]
        | p :: ps => (a :: p) :: ps := by
  show splitOnF c ds (s.length + 1) (a :: s) = _
  simp only [splitOnF]
  by_cases hp : c :: ds <+: a :: s
  · rw [if_pos hp,
      splitOnF_fuel c ds s.length (s.drop ds.length).length (s.drop ds.length)
        (by rw [List.length_drop]; omega) le_rfl]
    rw [if_pos hp]
    rfl
  · rw [if_neg hp, if_neg hp]
    rfl

/-- A one-part split means no separator occurred: the part is the whole
string. -/
theorem splitOnF_singleton (c : Char) (ds : List Char) :
    ∀ f s p, s.length ≤ f → splitOnF c ds f s = [p] → p = s := by
  intro f
  induction f with
  | zero =>
    intro s p h1 h2
    have hs : s = [] := List.eq_nil_of_length_eq_zero (Nat.le_zero.mp h1)
    subst hs
    simp [splitOnF] at h2
    exact h2
  | succ f ih =>
    intro s p h1 h2
    cases s with
    | nil =>
      simp [splitOnF] at h2
      exact h2
    | cons a s =>
      have h1' : s.length ≤ f := by simp at h1; omega
      simp only [splitOnF] at h2
      by_cases hp : c :: ds <+: a :: s
      · rw [if_pos hp] at h2
        simp only [List.cons.injEq] at h2
        exact absurd h2.2 (splitOnF_ne_nil c ds f (s.drop ds.length))
      · rw [if_neg hp] at h2
        cases hsp : splitOnF c ds f s with
        | nil => exact absurd hsp (splitOnF_ne_nil c ds f s)
        | cons q qs =>
          rw [hsp] at h2
          simp only [List.cons.injEq] at h2
          obtain ⟨hq, hqs⟩ := h2
          subst hqs
          have := ih s q h1' hsp
          subst this
          exact hq.symm

/-- A split with at least two parts means a separator occurred, so the
string is at least as long as the separator. -/
theorem splitOnF_two_le (c : Char) (ds : List Char) :
    ∀ f s, s.length ≤ f → 2 ≤ (splitOnF c ds f s).length →
      ds.length + 1 ≤ s.length := by
  intro f
  induction f with
  | zero =>
    intro s h1 h2
    have hs : s = [] := List.eq_nil_of_length_eq_zero (Nat.le_zero.mp h1)
    subst hs
    simp [splitOnF] at h2
  | succ f ih =>
    intro s h1 h2
    cases s with
    | nil => simp [splitOnF] at h2
    | cons a s =>
      have h1' : s.length ≤ f := by simp at h1; omega
      simp only [splitOnF] at h2
      by_cases hp : c :: ds <+: a :: s
      · have := hp.length_le
        simp at this ⊢
        omega
      · rw [if_neg hp] at h2
        cases hsp : splitOnF c ds f s with
        | nil => exact absurd hsp (splitOnF_ne_nil c ds f s)
        | cons q qs =>
          rw [hsp] at h2
          cases qs with
          | nil => simp at h2
          | cons q1 qs1 =>
            have : ds.length + 1 ≤ s.length := by
              apply ih s h1'
              rw [hsp]
              simp
            simp
            omega

/-- The last part of a split contains no further separator: splitting it
again returns it whole. -/
theorem splitOnF_last (c : Char) (ds : List Char) :
    ∀ f s, s.length ≤ f →
      splitOn c ds ((splitOnF c ds f s).getLastD []) =
        [(splitOnF c ds f s).getLastD []] := by
  intro f
  induction f with
  | zero =>
    intro s h1
    have hs : s = [] := List.eq_nil_of_length_eq_zero (Nat.le_zero.mp h1)
    subst hs
    rfl
  | succ f ih =>
    intro s h1
    cases s with
    | nil => rfl
    | cons a s =>
      have h1' : s.length ≤ f := by simp at h1; omega
      simp only [splitOnF]
      by_cases hp : c :: ds <+: a :: s
      · rw [if_pos hp]
        rw [List.getLastD_cons]
        exact ih (s.drop ds.length) (by rw [List.length_drop]; omega)
      · rw [if_neg hp]
        cases hsp : splitOnF c ds f s with
        | nil => exact absurd hsp (splitOnF_ne_nil c ds f s)
        | cons q qs =>
          cases qs with
          | nil =>
            have hq : q = s := splitOnF_singleton c ds f s q h1' hsp
            subst hq
            show splitOn c ds (a :: q) = [a :: q]
            rw [splitOn_cons, if_neg hp]
            have hqs : splitOn c ds q = [q] := by
              show splitOnF c ds q.length q = [q]
              rw [splitOnF_fuel c ds q.length f q le_rfl h1', hsp]
            rw [hqs]
          | cons q1 qs1 =>
            have := ih s h1'
            rw [hsp] at this
            simp only [List.getLastD_cons] at this ⊢
            exact this

/-- Appending to a string refines its split: the complete (non-final) parts
are unchanged, and the final part is re-split together with the appended
text.  This is the heart of the streaming splitter's correctness. -/
theorem splitOnF_append (c : Char) (ds : List Char) :
    ∀ f u ps q v, u.length ≤ f → splitOnF c ds f u = ps ++ [q] →
      splitOn c ds (u ++ v) = ps ++ splitOn c ds (q ++ v) := by
  intro f
  induction f with
  | zero =>
    intro u ps q v h1 h2
    have hs : u = [] := List.eq_nil_of_length_eq_zero (Nat.le_zero.mp h1)
    subst hs
    simp only [splitOnF] at h2
    cases ps with
    | nil =>
      simp at h2
      subst h2
      simp
    | cons p0 ps' => simp at h2
  | succ f ih =>
    intro u ps q v h1 h2
    cases u with
    | nil =>
      simp only [splitOnF] at h2
      cases ps with
      | nil =>
        simp at h2
        subst h2
        simp
      | cons p0 ps' => simp at h2
    | cons a u' =>
      have h1' : u'.length ≤ f := by simp at h1; omega
      simp only [splitOnF] at h2
      by_cases hp : c :: ds <+: a :: u'
      · rw [if_pos hp] at h2
        cases ps with
        | nil =>
          simp only [List.nil_append, List.cons.injEq] at h2
          exact absurd h2.2 (splitOnF_ne_nil c ds f (u'.drop ds.length))
        | cons p0 ps' =>
          simp only [List.cons_append, List.cons.injEq] at h2
          obtain ⟨hp0, h2'⟩ := h2
          subst hp0
          have hcons : (a :: u') ++ v = a :: (u' ++ v) := rfl
          rw [hcons, splitOn_cons]
          have hp2 : c :: ds <+: a :: (u' ++ v) := isPre_append_right hp
          rw [if_pos hp2]
          have hlen : ds.length ≤ u'.length := by
            have := hp.length_le
            simp at this
            omega
          have hd : (u' ++ v).drop ds.length = u'.drop ds.length ++ v := by
            rw [List.drop_append_eq_append_drop, Nat.sub_eq_zero_of_le hlen,
              List.drop_zero]
          rw [hd, ih (u'.drop ds.length) ps' q v
            (by rw [List.length_drop]; omega) h2']
          rfl
      · rw [if_neg hp] at h2
        cases hsp : splitOnF c ds f u' with
        | nil => exact absurd hsp (splitOnF_ne_nil c ds f u')
        | cons q' qs =>
          rw [hsp] at h2
          cases qs with
          | nil =>
            cases ps with
            | nil =>
              simp only [List.nil_append, List.cons.injEq] at h2
              obtain ⟨hq, -⟩ := h2
              have hq' : q' = u' := splitOnF_singleton c ds f u' q' h1' hsp
              subst hq'
              subst hq
              simp
            | cons p0 ps' =>
              simp only [List.cons_append, List.cons.injEq] at h2
              obtain ⟨-, h2'⟩ := h2
              exact absurd h2'.symm (by simp)
          | cons q1 qs1 =>
            cases ps with
            | nil =>
              simp only [List.nil_append] at h2
              simp only [List.cons.injEq] at h2
              obtain ⟨-, h2'⟩ := h2
              exact absurd h2' (by simp)
            | cons p0 ps2 =>
              simp only [List.cons_append, List.cons.injEq] at h2
              obtain ⟨hp0, h2'⟩ := h2
              subst hp0
              have h2le : ds.length + 1 ≤ u'.length := by
                apply splitOnF_two_le c ds f u' h1'
                rw [hsp]
                simp
              have hcons : (a :: u') ++ v = a :: (u' ++ v) := rfl
              rw [hcons, splitOn_cons]
              have hnp : ¬ (c :: ds <+: a :: (u' ++ v)) := by
                intro hcon
                exact hp (isPre_of_append (u := a :: u') hcon (by simp; omega))
              rw [if_neg hnp]
              have ihres : splitOn c ds (u' ++ v) =
                  (q' :: ps2) ++ splitOn c ds (q ++ v) := by
                apply ih u' (q' :: ps2) q v h1'
                rw [hsp, h2']
                rfl
              rw [ihres]
              rfl

/-- `splitOn` version of `splitOnF_append`. -/
theorem splitOn_append_last (c : Char) (ds : List Char) (u v : List Char)
    (ps : List (List Char)) (q : List Char)
    (h : splitOn c ds u = ps ++ [q]) :
    splitOn c ds (u ++ v) = ps ++ splitOn c ds (q ++ v) :=
  splitOnF_append c ds u.length u ps q v le_rfl h

/-- `splitOn` version of `splitOnF_last`. -/
theorem splitOn_last (c : Char) (ds : List Char) (s : List Char) :
    splitOn c ds ((splitOn c ds s).getLastD []) =
      [(splitOn c ds s).getLastD []] :=
  splitOnF_last c ds s.length s le_rfl

/-- `emitParts` distributes over appending part lists. -/
theorem emitParts_append (xs ys : List (List Char)) :
    emitParts (xs ++ ys) = emitParts xs ++ emitParts ys := by
  simp [emitParts]

/-- The streaming splitter invariant: starting from a buffer already free of
separators, streaming any chunk list equals the naive split of the buffer
followed by the chunks' concatenation. -/
theorem streamSplitGo_eq_naive (c : Char) (ds : List Char) :
    ∀ chunks buffer, splitOn c ds buffer = [buffer] →
      streamSplitGo c ds buffer chunks =
        naiveSplitDocs c ds (buffer ++ chunks.join) := by
  intro chunks
  induction chunks with
  | nil =>
    intro buffer hb
    simp only [streamSplitGo, List.join_nil, List.append_nil, naiveSplitDocs,
      hb]
    by_cases he : (pyStrip buffer).isEmpty <;>
      simp [emitParts, List.filter, he]
  | cons ch rest ih =>
    intro buffer hb
    simp only [streamSplitGo]
    have hne : splitOn c ds (buffer ++ ch) ≠ [] :=
      splitOn_ne_nil c ds (buffer ++ ch)
    have hdec : (splitOn c ds (buffer ++ ch)).dropLast ++
        [(splitOn c ds (buffer ++ ch)).getLastD []] =
        splitOn c ds (buffer ++ ch) :=
      dropLast_append_getLastD [] hne
    have hlast := splitOn_last c ds (buffer ++ ch)
    rw [ih ((splitOn c ds (buffer ++ ch)).getLastD []) hlast]
    have hjoin : buffer ++ (ch :: rest).join = (buffer ++ ch) ++ rest.join := by
      simp
    rw [hjoin]
    unfold naiveSplitDocs
    rw [splitOn_append_last c ds (buffer ++ ch) rest.join
      (splitOn c ds (buffer ++ ch)).dropLast
      ((splitOn c ds (buffer ++ ch)).getLastD []) hdec.symm]
    rw [emitParts_append]

/-- The streaming splitter computes exactly the naive split of the
concatenated input. -/
theorem streamDocs_eq_naive (c : Char) (ds : List Char)
    (chunks : List (List Char)) :
    streamDocs c ds chunks = naiveSplitDocs c ds chunks.join :=
  streamSplitGo_eq_naive c ds chunks [] rfl

/-- C2: for every text and every partitioning of it into read-buffer chunks,
the streaming splitter `_stream_documents_from_delimited_text` yields exactly
the documents of the naive reference split (split the concatenation, strip
each part, drop empties) — in particular delimiters spanning chunk
boundaries are recognised — and the spec's end-to-end input yields exactly
`"Doc A"`, `"Doc B"`, `"Doc C"` however it is chunked. -/
theorem c2_stream_split_refines_naive :
    (∀ (c : Char) (ds : List Char) (chunks : List (List Char)),
      streamDocs c ds chunks = naiveSplitDocs c ds chunks.join) ∧
    (∀ chunks : List (List Char),
      chunks.join = "Doc A\n\n--------\n\nDoc B\n\n--------\n\nDoc C".data →
      streamDocs '\n' dlmTail chunks =
        ["Doc A".data, "Doc B".data, "Doc C".data]) := by
  refine ⟨streamDocs_eq_naive, ?_⟩
  intro chunks h
  rw [streamDocs_eq_naive, h]
  decide

/-- Witness for `c2_stream_split_refines_naive`: a concrete chunking that
splits the delimiter across the buffer boundary. -/
theorem c2_stream_split_refines_naive_witness :
    ["Doc A\n\n----".data, "----\n\nDoc B\n\n--------\n\nDoc C".data].join =
      "Doc A\n\n--------\n\nDoc B\n\n--------\n\nDoc C".data ∧
    streamDocs '\n' dlmTail
      ["Doc A\n\n----".data, "----\n\nDoc B\n\n--------\n\nDoc C".data] =
      ["Doc A".data, "Doc B".data, "Doc C".data] :=
  ⟨by decide, c2_stream_split_refines_naive.2 _ (by decide)⟩

/-! ## The embedded `str.replace` and `_clean_delimiter` -/

/-- The fuel of `replaceAllF` is irrelevant once it covers the input length
(for a non-empty pattern). -/
theorem replaceAllF_fuel (pat rep : List Char) (hpat : pat ≠ []) :
    ∀ f1 f2 s, s.length ≤ f1 → s.length ≤ f2 →
      replaceAllF pat rep f1 s = replaceAllF pat rep f2 s := by
  have hl : 1 ≤ pat.length := List.length_pos.mpr hpat
  intro f1
  induction f1 with
  | zero =>
    intro f2 s h1 _
    have hs : s = [] := List.eq_nil_of_length_eq_zero (Nat.le_zero.mp h1)
    subst hs
    cases f2 <;> rfl
  | succ f1 ih =>
    intro f2 s h1 h2
    cases s with
    | nil => cases f2 <;> rfl
    | cons a s =>
      cases f2 with
      | zero => simp at h2
      | succ f2 =>
        have h1' : s.length ≤ f1 := by simp at h1; omega
        have h2' : s.length ≤ f2 := by simp at h2; omega
        simp only [replaceAllF]
        by_cases hp : pat <+: a :: s
        · rw [if_pos hp,
            ih f2 ((a :: s).drop pat.length)
              (by rw [List.length_drop]; simp; omega)
              (by rw [List.length_drop]; simp; omega)]
          rw [if_pos hp]
        · rw [if_neg hp, ih f2 s h1' h2', if_neg hp]

/-- Occurrences survive dropping a prefix of the text, shifted. -/
theorem noOverlap_drop {d s : List Char} (k : Nat)
    (h : noOverlappingDelims d s) : noOverlappingDelims d (s.drop k) := by
  intro i j hi hj hij
  unfold occursAt at hi hj
  rw [List.drop_drop] at hi hj
  have := h (k + i) (k + j) hi hj (by omega)
  omega

/-- A string with no delimiter occurrence is left unchanged by the
replacement. -/
theorem replaceAllF_id :
    ∀ f s, s.length ≤ f → ¬ containsSeq dlm s →
      replaceAllF dlm dlmMarker f s = s := by
  intro f
  induction f with
  | zero =>
    intro s h1 _
    have hs : s = [] := List.eq_nil_of_length_eq_zero (Nat.le_zero.mp h1)
    subst hs
    rfl
  | succ f ih =>
    intro s h1 h
    cases s with
    | nil => rfl
    | cons a s =>
      have h1' : s.length ≤ f := by simp at h1; omega
      simp only [replaceAllF]
      by_cases hp : dlm <+: a :: s
      · exact absurd ⟨0, by simpa [occursAt] using hp⟩ h
      · rw [if_neg hp]
        refine congrArg (a :: ·) (ih s h1' ?_)
        rintro ⟨i, hi⟩
        exact h ⟨i + 1, by simpa [occursAt, List.drop_succ_cons] using hi⟩

/-- Pulling a leading `'\n'` back through the replacement: the replacement
and the pattern both start with `'\n'`. -/
theorem pullback_nl :
    ∀ f s, ['\n'] <+: replaceAllF dlm dlmMarker f s → ['\n'] <+: s := by
  intro f s h2
  cases s with
  | nil =>
    cases f <;> simp [replaceAllF] at h2
  | cons a s =>
    cases f with
    | zero => exact h2
    | succ f =>
      simp only [replaceAllF] at h2
      by_cases hp : dlm <+: a :: s
      · obtain ⟨t, ht⟩ := hp
        have ha : a = '\n' := by
          rw [show dlm = '\n' :: dlmTail from rfl] at ht
          exact (List.cons.injEq _ _ _ _ ▸ ht).1.symm
        subst ha
        exact List.cons_prefix_cons.mpr ⟨rfl, List.nil_prefix⟩
      · rw [if_neg hp] at h2
        obtain ⟨ha, -⟩ := List.cons_prefix_cons.mp h2
        subst ha
        exact List.cons_prefix_cons.mpr ⟨rfl, List.nil_prefix⟩

/-- Pulling a dash run terminated by `"\n\n"` back through the replacement:
the replacement writes no dashes, so the dashes come from the original
text. -/
theorem pullback_dashes :
    ∀ n f s, s.length ≤ f →
      (List.replicate n '-' ++ ['\n', '\n']) <+:
          replaceAllF dlm dlmMarker f s →
      (List.replicate n '-' ++ ['\n', '\n']) <+: s := by
  intro n
  induction n with
  | zero =>
    intro f s h1 h2
    simp only [List.replicate_zero, List.nil_append] at h2 ⊢
    cases s with
    | nil =>
      cases f <;> simp [replaceAllF] at h2
    | cons a s =>
      cases f with
      | zero => exact h2
      | succ f =>
        simp only [replaceAllF] at h2
        by_cases hp : dlm <+: a :: s
        · exact (show ['\n', '\n'] <+: dlm by decide).trans hp
        · rw [if_neg hp] at h2
          obtain ⟨ha, h3⟩ := List.cons_prefix_cons.mp h2
          subst ha
          have h4 := pullback_nl f s h3
          obtain ⟨t, ht⟩ := h4
          refine List.cons_prefix_cons.mpr ⟨rfl, ?_⟩
          rw [← ht]
          exact List.cons_prefix_cons.mpr ⟨rfl, List.nil_prefix⟩
  | succ n ihn =>
    intro f s h1 h2
    rw [List.replicate_succ, List.cons_append] at h2 ⊢
    cases s with
    | nil =>
      cases f <;> simp [replaceAllF] at h2
    | cons a s =>
      cases f with
      | zero => exact h2
      | succ f =>
        simp only [replaceAllF] at h2
        by_cases hp : dlm <+: a :: s
        · rw [if_pos hp,
            show dlmMarker = '\n' :: "\n++++++++\n\n".data from rfl] at h2
          obtain ⟨ha, -⟩ := List.cons_prefix_cons.mp h2
          exact absurd ha (by decide)
        · rw [if_neg hp] at h2
          obtain ⟨ha, h3⟩ := List.cons_prefix_cons.mp h2
          subst ha
          have h1' : s.length ≤ f := by simp at h1; omega
          exact List.cons_prefix_cons.mpr ⟨rfl, ihn f s h1' h3⟩

/-- Pulling `"\n--------\n\n"` (the delimiter minus its first character)
back through the replacement. -/
theorem pullback_nl_dashes :
    ∀ f s, s.length ≤ f →
      ('\n' :: (List.replicate 8 '-' ++ ['\n', '\n'])) <+:
          replaceAllF dlm dlmMarker f s →
      ('\n' :: (List.replicate 8 '-' ++ ['\n', '\n'])) <+: s := by
  intro f s h1 h2
  cases s with
  | nil =>
    cases f <;> simp [replaceAllF] at h2
  | cons a s =>
    cases f with
    | zero => exact h2
    | succ f =>
      simp only [replaceAllF] at h2
      by_cases hp : dlm <+: a :: s
      · rw [if_pos hp,
          show dlmMarker = '\n' :: '\n' :: "++++++++\n\n".data from rfl] at h2
        obtain ⟨-, h3⟩ := List.cons_prefix_cons.mp h2
        rw [List.replicate_succ, List.cons_append] at h3
        obtain ⟨ha, -⟩ := List.cons_prefix_cons.mp h3
        exact absurd ha (by decide)
      · rw [if_neg hp] at h2
        obtain ⟨ha, h3⟩ := List.cons_prefix_cons.mp h2
        subst ha
        have h1' : s.length ≤ f := by simp at h1; omega
        exact List.cons_prefix_cons.mpr ⟨rfl, pullback_dashes 8 f s h1' h3⟩

/-- Core of the delimiter-neutralisation analysis: if no two delimiter
occurrences in the input overlap, the replaced text contains no delimiter
occurrence.  (The two replacement-boundary cases `i = 10, 11` are exactly
the self-overlaps of `"\n\n--------\n\n"`.) -/
theorem replaceAllF_no_delim :
    ∀ f s, s.length ≤ f → noOverlappingDelims dlm s →
      ¬ containsSeq dlm (replaceAllF dlm dlmMarker f s) := by
  have hdl : dlm.length = 12 := rfl
  have hml : dlmMarker.length = 12 := rfl
  intro f
  induction f with
  | zero =>
    intro s h1 _ hc
    have hs : s = [] := List.eq_nil_of_length_eq_zero (Nat.le_zero.mp h1)
    subst hs
    obtain ⟨i, hi⟩ := hc
    simp [replaceAllF, occursAt] at hi
    exact absurd hi (by decide)
  | succ f ih =>
    intro s h1 hno hc
    cases s with
    | nil =>
      obtain ⟨i, hi⟩ := hc
      simp [replaceAllF, occursAt] at hi
      exact absurd hi (by decide)
    | cons a s =>
      have h1' : s.length ≤ f := by simp at h1; omega
      simp only [replaceAllF] at hc
      by_cases hp : dlm <+: a :: s
      · rw [if_pos hp] at hc
        obtain ⟨i, hi⟩ := hc
        unfold occursAt at hi
        have hlen2 : ((a :: s).drop dlm.length).length ≤ f := by
          rw [List.length_drop, hdl]
          simp
          omega
        by_cases hI : 12 ≤ i
        · rw [List.drop_append_eq_append_drop,
            List.drop_eq_nil_of_le (by rw [hml]; omega),
            List.nil_append] at hi
          exact ih ((a :: s).drop dlm.length) hlen2
            (noOverlap_drop dlm.length hno)
            ⟨i - dlmMarker.length, hi⟩
        · push_neg at hI
          rw [List.drop_append_eq_append_drop,
            Nat.sub_eq_zero_of_le (by rw [hml]; omega), List.drop_zero] at hi
          have hsp := isPre_split hi
            (by rw [List.length_drop, hml, hdl]; omega)
          obtain ⟨hu, hv⟩ := hsp
          obtain ⟨t, ht⟩ := hp
          have hteq : (a :: s).drop dlm.length = t := by
            rw [← ht, List.drop_left]
          have hocc0 : occursAt dlm (a :: s) 0 := by
            unfold occursAt
            rw [List.drop_zero]
            exact ⟨t, ht⟩
          interval_cases i
          · exact absurd hu (by decide)
          · exact absurd hu (by decide)
          · exact absurd hu (by decide)
          · exact absurd hu (by decide)
          · exact absurd hu (by decide)
          · exact absurd hu (by decide)
          · exact absurd hu (by decide)
          · exact absurd hu (by decide)
          · exact absurd hu (by decide)
          · exact absurd hu (by decide)
          · -- i = 10: the replacement's trailing "\n\n" rejoins a dash run
            have hv8 : (List.replicate 8 '-' ++ ['\n', '\n']) <+:
                replaceAllF dlm dlmMarker f ((a :: s).drop dlm.length) := by
              have hconv : dlm.drop (dlmMarker.drop 10).length =
                  List.replicate 8 '-' ++ ['\n', '\n'] := by decide
              rwa [hconv] at hv
            have hvs := pullback_dashes 8 f ((a :: s).drop dlm.length)
              hlen2 hv8
            rw [hteq] at hvs
            obtain ⟨r, hr⟩ := hvs
            have hocc10 : occursAt dlm (a :: s) 10 := by
              unfold occursAt
              have hstep : (a :: s).drop 10 = ['\n', '\n'] ++ t := by
                rw [← ht, List.drop_append_eq_append_drop,
                  show dlm.drop 10 = ['\n', '\n'] from by decide,
                  Nat.sub_eq_zero_of_le (by rw [hdl]; omega), List.drop_zero]
              rw [hstep]
              refine ⟨r, ?_⟩
              rw [← hr, show dlm = ['\n', '\n'] ++
                (List.replicate 8 '-' ++ ['\n', '\n']) from by decide]
              simp
            have := hno 0 10 hocc0 hocc10 (by omega)
            rw [hdl] at this
            omega
          · -- i = 11: same with the final "\n" alone
            have hv11 : ('\n' :: (List.replicate 8 '-' ++ ['\n', '\n'])) <+:
                replaceAllF dlm dlmMarker f ((a :: s).drop dlm.length) := by
              have hconv : dlm.drop (dlmMarker.drop 11).length =
                  '\n' :: (List.replicate 8 '-' ++ ['\n', '\n']) := by decide
              rwa [hconv] at hv
            have hvs := pullback_nl_dashes f ((a :: s).drop dlm.length)
              hlen2 hv11
            rw [hteq] at hvs
            obtain ⟨r, hr⟩ := hvs
            have hocc11 : occursAt dlm (a :: s) 11 := by
              unfold occursAt
              have hstep : (a :: s).drop 11 = ['\n'] ++ t := by
                rw [← ht, List.drop_append_eq_append_drop,
                  show dlm.drop 11 = ['\n'] from by decide,
                  Nat.sub_eq_zero_of_le (by rw [hdl]; omega), List.drop_zero]
              rw [hstep]
              refine ⟨r, ?_⟩
              rw [← hr, show dlm = ['\n'] ++
                ('\n' :: (List.replicate 8 '-' ++ ['\n', '\n'])) from by decide]
              simp
            have := hno 0 11 hocc0 hocc11 (by omega)
            rw [hdl] at this
            omega
      · rw [if_neg hp] at hc
        obtain ⟨i, hi⟩ := hc
        cases i with
        | zero =>
          unfold occursAt at hi
          rw [List.drop_zero,
            show dlm = '\n' :: ('\n' :: (List.replicate 8 '-' ++
              ['\n', '\n'])) from by decide] at hi
          obtain ⟨ha, h3⟩ := List.cons_prefix_cons.mp hi
          subst ha
          have h4 := pullback_nl_dashes f s h1' h3
          refine hp ?_
          rw [show dlm = '\n' :: ('\n' :: (List.replicate 8 '-' ++
            ['\n', '\n'])) from by decide]
          exact List.cons_prefix_cons.mpr ⟨rfl, h4⟩
        | succ i2 =>
          unfold occursAt at hi
          rw [List.drop_succ_cons] at hi
          exact ih s h1' (noOverlap_drop 1 hno) ⟨i2, hi⟩

/-- A text free of delimiter occurrences is a fixed point of
`_clean_delimiter`. -/
theorem cleanDelimiter_eq_self (s : List Char) (h : ¬ containsSeq dlm s) :
    cleanDelimiter s = s :=
  replaceAllF_id s.length s le_rfl h

/-- C3 (amended): for every input whose delimiter occurrences do not
overlap, `_clean_delimiter` removes every occurrence of the delimiter and is
idempotent.  (As originally stated — for *every* input — the claim fails:
see the counterexample with two overlapping occurrences.) -/
theorem c3_clean_delimiter_no_overlap (s : List Char)
    (h : noOverlappingDelims dlm s) :
    ¬ containsSeq dlm (cleanDelimiter s) ∧
      cleanDelimiter (cleanDelimiter s) = cleanDelimiter s := by
  have hnc : ¬ containsSeq dlm (cleanDelimiter s) :=
    replaceAllF_no_delim s.length s le_rfl h
  exact ⟨hnc, cleanDelimiter_eq_self _ hnc⟩

/-- C3 counterexample: on `"\n\n--------\n\n--------\n\n"` (two overlapping
delimiter occurrences) the neutralised text still contains the delimiter,
and neutralisation is not idempotent. -/
theorem c3_counterexample :
    containsSeq dlm (cleanDelimiter "\n\n--------\n\n--------\n\n".data) ∧
      cleanDelimiter (cleanDelimiter "\n\n--------\n\n--------\n\n".data) ≠
        cleanDelimiter "\n\n--------\n\n--------\n\n".data :=
  ⟨⟨10, by decide⟩, by decide⟩

/-- Witness for `c3_clean_delimiter_no_overlap` at a concrete document. -/
theorem c3_clean_delimiter_no_overlap_witness :
    noOverlappingDelims dlm "Doc A\n\n--------\n\nDoc B".data ∧
      (¬ containsSeq dlm (cleanDelimiter "Doc A\n\n--------\n\nDoc B".data) ∧
        cleanDelimiter (cleanDelimiter "Doc A\n\n--------\n\nDoc B".data) =
          cleanDelimiter "Doc A\n\n--------\n\nDoc B".data) :=
  ⟨by decide, c3_clean_delimiter_no_overlap _ (by decide)⟩

/-! ## Decimal ids: `natStr` round-trips and is injective -/

/-- Parsing a digit string with one more digit appended. -/
theorem natVal_append (xs : List Char) (c : Char) :
    natVal (xs ++ [c]) = natVal xs * 10 + (c.toNat - 48) := by
  unfold natVal
  rw [List.foldl_append]
  rfl

/-- The code of a decimal digit character parses back to the digit. -/
theorem digitChar_val (d : Nat) (h : d < 10) :
    (Nat.digitChar d).toNat - 48 = d := by
  interval_cases d <;> rfl

/-- `natStrAux` renders the decimal expansion: parsing it back recovers the
number whenever the fuel suffices. -/
theorem natVal_natStrAux : ∀ fuel n, n ≤ fuel → natVal (natStrAux fuel n) = n := by
  intro fuel
  induction fuel with
  | zero =>
    intro n h
    have hn : n = 0 := Nat.le_zero.mp h
    subst hn
    rfl
  | succ fuel ih =>
    intro n h
    by_cases h10 : n < 10
    · simp only [natStrAux, if_pos h10]
      show natVal ([] ++ [Nat.digitChar n]) = n
      rw [natVal_append, digitChar_val n h10]
      simp [natVal]
    · simp only [natStrAux, if_neg h10]
      rw [natVal_append, digitChar_val (n % 10) (Nat.mod_lt n (by omega)),
        ih (n / 10) (by omega)]
      omega

/-- Parsing a rendered number recovers it. -/
theorem natVal_natStr (n : Nat) : natVal (natStr n) = n :=
  natVal_natStrAux n n le_rfl

/-- Python `str` on naturals is injective. -/
theorem natStr_injective : Function.Injective natStr := by
  intro a b h
  rw [← natVal_natStr a, ← natVal_natStr b, h]

/-! ## Text-pair bookkeeping for the ingestion run -/

/-- `textPairs` on a cons cell. -/
theorem textPairs_cons (start : Nat) (d : List Char) (ds : List (List Char)) :
    textPairs start (d :: ds) = (natStr start, d) :: textPairs (start + 1) ds :=
  rfl

/-- `textPairs` distributes over append, shifting the start index. -/
theorem textPairs_append (start : Nat) (u v : List (List Char)) :
    textPairs start (u ++ v) = textPairs start u ++ textPairs (start + u.length) v := by
  unfold textPairs
  rw [List.enumFrom_append, List.map_append]

/-- `embPairs` on a cons cell. -/
theorem embPairs_cons {Emb : Type} (enc : List Char → Emb) (start : Nat)
    (d : List Char) (ds : List (List Char)) :
    embPairs enc start (d :: ds) =
      (natStr start, enc d) :: embPairs enc (start + 1) ds :=
  rfl

/-- `embPairs` distributes over append, shifting the start index. -/
theorem embPairs_append {Emb : Type} (enc : List Char → Emb) (start : Nat)
    (u v : List (List Char)) :
    embPairs enc start (u ++ v) =
      embPairs enc start u ++ embPairs enc (start + u.length) v := by
  unfold embPairs
  rw [List.enumFrom_append, List.map_append]

/-- The ids of `textPairs` are the rendered integers of the id range. -/
theorem textPairs_keys (start : Nat) (docs : List (List Char)) :
    (textPairs start docs).map Prod.fst =
      (List.range docs.length).map (fun o => natStr (start + o)) := by
  induction docs generalizing start with
  | nil => rfl
  | cons d ds ih =>
    rw [textPairs_cons, List.length_cons, List.range_succ_eq_map]
    simp only [List.map_cons, List.map_map]
    rw [ih (start + 1)]
    simp only [Nat.add_zero]
    congr 1
    refine List.map_congr_left ?_
    intro o _
    simp only [Function.comp]
    exact congrArg natStr (by omega)

/-- The id column of a `textPairs` block is duplicate-free. -/
theorem textPairs_keys_nodup (start : Nat) (docs : List (List Char)) :
    ((textPairs start docs).map Prod.fst).Nodup := by
  rw [textPairs_keys]
  refine List.Nodup.map ?_ (List.nodup_range _)
  intro a b h
  have := natStr_injective h
  omega

/-- `embPairs` and `textPairs` carry the same ids. -/
theorem embPairs_keys {Emb : Type} (enc : List Char → Emb) (start : Nat)
    (docs : List (List Char)) :
    (embPairs enc start docs).map Prod.fst = (textPairs start docs).map Prod.fst := by
  unfold embPairs textPairs
  rw [List.map_map, List.map_map]
  rfl

/-- The ids assigned to a window agree with the zip of `idsFrom`:
pairing them with the per-document encodings is `embPairs`. -/
theorem idsFrom_zip_map {Emb : Type} (enc : List Char → Emb) :
    ∀ (wnd : List (List Char)) (start : Nat),
      (idsFrom start wnd).zip (wnd.map enc) = embPairs enc start wnd := by
  intro wnd
  induction wnd with
  | nil => intro start; rfl
  | cons d ds ih =>
    intro start
    have hids : idsFrom start (d :: ds) =
        natStr start :: idsFrom (start + 1) ds := by
      unfold idsFrom
      rw [List.length_cons, List.range_succ_eq_map]
      simp only [List.map_cons, List.map_map]
      simp only [Nat.add_zero]
      congr 1
      refine List.map_congr_left ?_
      intro o _
      simp only [Function.comp]
      exact congrArg natStr (by omega)
    rw [hids, List.map_cons, List.zip_cons_cons, ih (start + 1),
      embPairs_cons]

/-- `idsFrom` with one more document appended at the end. -/
theorem idsFrom_snoc (start : Nat) (wnd : List (List Char)) (d : List Char) :
    idsFrom start (wnd ++ [d]) =
      idsFrom start wnd ++ [natStr (start + wnd.length)] := by
  unfold idsFrom
  rw [List.length_append, List.length_singleton, List.range_succ,
    List.map_append]
  rfl

/-! ## Collection writer: batched upserts behave as appends on fresh ids -/

/-- An upsert with a key absent from the database appends. -/
theorem dbUpsert_fresh (db : List (List Char × List Char))
    (k v : List Char) (h : ∀ e ∈ db, e.1 ≠ k) :
    dbUpsert db k v = db ++ [(k, v)] := by
  unfold dbUpsert
  have hcond : ¬ (db.any (fun e => decide (e.1 = k)) = true) := by
    rw [List.any_eq_true]
    rintro ⟨e, he, hek⟩
    exact h e he (by simpa using hek)
  rw [if_neg hcond]

/-- A batch of fresh, mutually distinct ids upserts as a plain append. -/
theorem addBatch_fresh :
    ∀ (batch db : List (List Char × List Char)),
      ((db ++ batch).map Prod.fst).Nodup → addBatch db batch = db ++ batch := by
  intro batch
  induction batch with
  | nil =>
    intro db _
    simp [addBatch]
  | cons it rest ih =>
    intro db h
    show addBatch (dbUpsert db it.1 it.2) rest = db ++ it :: rest
    have hfresh : ∀ e ∈ db, e.1 ≠ it.1 := by
      intro e he hek
      rw [List.map_append, List.nodup_append] at h
      have h1m : e.1 ∈ db.map Prod.fst := List.mem_map_of_mem Prod.fst he
      have h2m : e.1 ∈ (it :: rest).map Prod.fst := by rw [hek]; simp
      exact h.2.2 h1m h2m
    rw [dbUpsert_fresh db it.1 it.2 hfresh]
    have h2 : (((db ++ [it]) ++ rest).map Prod.fst).Nodup := by
      rwa [List.append_assoc, List.singleton_append]
    have := ih (db ++ [it]) h2
    rw [show db ++ [(it.1, it.2)] = db ++ [it] from by simp]
    rw [this, List.append_assoc, List.singleton_append]

/-- Flushing moves the batch into the database, preserving content. -/
theorem writerFlush_content (w : WriterState)
    (h : ((writerContent w).map Prod.fst).Nodup) :
    writerContent (writerFlush w) = writerContent w ∧
      (writerFlush w).batchSize = w.batchSize := by
  constructor
  · show addBatch w.db w.batch ++ [] = writerContent w
    rw [List.append_nil]
    exact addBatch_fresh w.batch w.db h
  · rfl

/-- `add_documents` appends the window's `(id, text)` pairs to the writer's
content (flushes permitting, given globally fresh ids). -/
theorem writerAddDocuments_content :
    ∀ (docs : List (List Char)) (w : WriterState) (start : Nat),
      ((writerContent w ++ textPairs start docs).map Prod.fst).Nodup →
      writerContent (writerAddDocuments w docs start) =
          writerContent w ++ textPairs start docs ∧
        (writerAddDocuments w docs start).batchSize = w.batchSize := by
  intro docs
  induction docs with
  | nil =>
    intro w start _
    exact ⟨by simp [writerAddDocuments, textPairs], rfl⟩
  | cons d ds ih =>
    intro w start h
    rw [textPairs_cons] at h
    have hassoc : writerContent w ++ (natStr start, d) :: textPairs (start + 1) ds =
        (writerContent w ++ [(natStr start, d)]) ++ textPairs (start + 1) ds := by
      simp
    rw [hassoc] at h
    have hc1 : writerContent
        ⟨w.batchSize, w.batch ++ [(natStr start, d)], w.db, w.totalSaved⟩ =
        writerContent w ++ [(natStr start, d)] := by
      simp [writerContent]
    have hsub : (((writerContent w ++ [(natStr start, d)])).map Prod.fst).Nodup := by
      refine List.Nodup.sublist ?_ h
      exact (List.sublist_append_left _ _).map Prod.fst
    simp only [writerAddDocuments]
    by_cases hflush : w.batchSize ≤ (w.batch ++ [(natStr start, d)]).length
    · rw [if_pos hflush]
      have hfc := writerFlush_content
        ⟨w.batchSize, w.batch ++ [(natStr start, d)], w.db, w.totalSaved⟩
        (by rw [hc1]; exact hsub)
      have h2 : ((writerContent (writerFlush
          ⟨w.batchSize, w.batch ++ [(natStr start, d)], w.db, w.totalSaved⟩) ++
            textPairs (start + 1) ds).map Prod.fst).Nodup := by
        rw [hfc.1, hc1]
        exact h
      have := ih (writerFlush
        ⟨w.batchSize, w.batch ++ [(natStr start, d)], w.db, w.totalSaved⟩)
        (start + 1) h2
      refine ⟨?_, ?_⟩
      · rw [this.1, hfc.1, hc1, textPairs_cons]
        simp
      · rw [this.2, hfc.2]
    · rw [if_neg hflush]
      have h2 : ((writerContent
          ⟨w.batchSize, w.batch ++ [(natStr start, d)], w.db, w.totalSaved⟩ ++
            textPairs (start + 1) ds).map Prod.fst).Nodup := by
        rw [hc1]
        exact h
      have := ih ⟨w.batchSize, w.batch ++ [(natStr start, d)], w.db,
        w.totalSaved⟩ (start + 1) h2
      refine ⟨?_, ?_⟩
      · rw [this.1, hc1, textPairs_cons]
        simp
      · rw [this.2]

/-- `finalize` flushes the remaining batch: the database ends up holding
exactly the writer's content. -/
theorem writerFinalize_db (w : WriterState)
    (h : ((writerContent w).map Prod.fst).Nodup) :
    (writerFinalize w).db = writerContent w := by
  unfold writerFinalize
  by_cases hb : w.batch.isEmpty
  · rw [if_pos hb]
    unfold writerContent
    have : w.batch = [] := by
      cases hw : w.batch
      · rfl
      · rw [hw] at hb; simp at hb
    rw [this, List.append_nil]
  · rw [if_neg hb]
    show addBatch w.db w.batch = writerContent w
    exact addBatch_fresh w.batch w.db h

/-! ## The ingestion loop processes exactly the accumulation windows -/

/-- The windows partition the document stream. -/
theorem windowsGo_join (cs : Nat) :
    ∀ (l : List (List Char)) (acc : List (List Char)),
      (windowsGo cs acc l).join = acc ++ l := by
  intro l
  induction l with
  | nil =>
    intro acc
    unfold windowsGo
    by_cases ha : acc.isEmpty
    · rw [if_pos ha]
      have : acc = [] := by
        cases acc
        · rfl
        · simp at ha
      simp [this]
    · rw [if_neg ha]
      simp
  | cons a l ih =>
    intro acc
    unfold windowsGo
    by_cases hf : cs ≤ (acc ++ [a]).length
    · rw [if_pos hf]
      simp [ih []]
    · rw [if_neg hf, ih (acc ++ [a])]
      simp

/-- The document loop of `build_index` equals the window-level
characterisation applied to the accumulation windows of the stream. -/
theorem buildGo_eq_windowedRun {Emb : Type}
    (encF : List (List Char) → Except Unit (List Emb))
    (ixF : List (List Char × Emb) → Except Unit Unit) (cs : Nat)
    (ipath : List Char) :
    ∀ (rest docChunk : List (List Char)) (tp chunkNo : Nat)
      (ix : List (List Char × Emb)) (w : WriterState)
      (calls : List (List (List Char))),
      buildGo encF ixF cs ipath (tp + docChunk.length) tp chunkNo docChunk
          (idsFrom tp docChunk) ix w calls rest =
        windowedRun encF ixF ipath tp chunkNo ix w calls
          (windowsGo cs docChunk rest) := by
  intro rest
  induction rest with
  | nil =>
    intro docChunk tp chunkNo ix w calls
    simp only [buildGo, windowsGo]
    by_cases hd : docChunk.isEmpty
    · rw [if_pos hd, if_pos hd]
      rfl
    · rw [if_neg hd, if_neg hd]
      simp only [windowedRun, Nat.add_sub_cancel]
  | cons d rest ih =>
    intro docChunk tp chunkNo ix w calls
    simp only [buildGo, windowsGo]
    have hids : idsFrom tp docChunk ++ [natStr (tp + docChunk.length)] =
        idsFrom tp (docChunk ++ [d]) := (idsFrom_snoc tp docChunk d).symm
    by_cases hf : cs ≤ (docChunk ++ [d]).length
    · rw [if_pos hf, if_pos hf, hids,
        show tp + docChunk.length + 1 = tp + (docChunk ++ [d]).length
          from by simp [Nat.add_assoc]]
      simp only [windowedRun, Nat.add_sub_cancel]
      cases encF (docChunk ++ [d]) with
      | error er => rfl
      | ok embs =>
        dsimp only
        cases ixF ((idsFrom tp (docChunk ++ [d])).zip embs) with
        | error er => rfl
        | ok u =>
          dsimp only
          have this1 := ih [] (tp + (docChunk ++ [d]).length) (chunkNo + 1)
            (ix ++ (idsFrom tp (docChunk ++ [d])).zip embs)
            (writerAddDocuments w (docChunk ++ [d]) tp)
            (calls ++ [docChunk ++ [d]])
          have hids0 : idsFrom (tp + (docChunk ++ [d]).length)
              ([] : List (List Char)) = [] := rfl
          rw [hids0] at this1
          simp only [List.length_nil, Nat.add_zero] at this1
          exact this1
    · rw [if_neg hf, if_neg hf, hids,
        show tp + docChunk.length + 1 = tp + (docChunk ++ [d]).length
          from by simp [Nat.add_assoc]]
      exact ih (docChunk ++ [d]) tp chunkNo ix w calls

/-- When the encoder encodes each document positionally and the index engine
never fails, the windowed run commits every window in order: dense ids, one
embedding per chunk, and matching text pairs in the writer. -/
theorem windowedRun_allOk {Emb : Type} (enc : List Char → Emb)
    (ipath : List Char) :
    ∀ (ws : List (List (List Char))) (start cn : Nat)
      (ix : List (List Char × Emb)) (w : WriterState)
      (calls : List (List (List Char))),
      ((writerContent w ++ textPairs start ws.join).map Prod.fst).Nodup →
      (windowedRun (fun ds => .ok (ds.map enc)) (fun _ => .ok ()) ipath
          start cn ix w calls ws).err = none ∧
      (windowedRun (fun ds => .ok (ds.map enc)) (fun _ => .ok ()) ipath
          start cn ix w calls ws).commits = ix ++ embPairs enc start ws.join ∧
      (windowedRun (fun ds => .ok (ds.map enc)) (fun _ => .ok ()) ipath
          start cn ix w calls ws).encCalls = calls ++ ws ∧
      (windowedRun (fun ds => .ok (ds.map enc)) (fun _ => .ok ()) ipath
          start cn ix w calls ws).total = start + ws.join.length ∧
      writerContent (windowedRun (fun ds => .ok (ds.map enc)) (fun _ => .ok ())
          ipath start cn ix w calls ws).writer =
        writerContent w ++ textPairs start ws.join := by
  intro ws
  induction ws with
  | nil =>
    intro start cn ix w calls _
    refine ⟨rfl, by simp [windowedRun, embPairs], by simp [windowedRun], ?_,
      by simp [windowedRun, textPairs]⟩
    simp [windowedRun]
  | cons wnd rest ih =>
    intro start cn ix w calls h
    have hjoin : (wnd :: rest).join = wnd ++ rest.join := by simp
    rw [hjoin, textPairs_append] at h
    have hwc := writerAddDocuments_content wnd w start (by
      refine List.Nodup.sublist ?_ h
      refine List.Sublist.map Prod.fst ?_
      rw [← List.append_assoc]
      exact List.sublist_append_left _ _)
    have hrec := ih (start + wnd.length) (cn + 1)
      (ix ++ (idsFrom start wnd).zip (wnd.map enc))
      (writerAddDocuments w wnd start) (calls ++ [wnd]) (by
      rw [hwc.1, List.append_assoc]
      exact h)
    have hred : windowedRun (fun ds => .ok (ds.map enc)) (fun _ => .ok ())
        ipath start cn ix w calls (wnd :: rest) =
        windowedRun (fun ds => .ok (ds.map enc)) (fun _ => .ok ()) ipath
          (start + wnd.length) (cn + 1)
          (ix ++ (idsFrom start wnd).zip (wnd.map enc))
          (writerAddDocuments w wnd start) (calls ++ [wnd]) rest := rfl
    rw [hred]
    refine ⟨hrec.1, ?_, ?_, ?_, ?_⟩
    · rw [hrec.2.1, idsFrom_zip_map, hjoin, embPairs_append]
      simp
    · rw [hrec.2.2.1]
      simp
    · rw [hrec.2.2.2.1, hjoin]
      simp [Nat.add_assoc]
    · rw [hrec.2.2.2.2, hwc.1, hjoin, textPairs_append]
      simp

/-- C1: for every finite chunk stream, a successful `build_index` run with a
collection writer commits to the index engine exactly the dense zero-based
ids `"0" … "N-1"`, each paired with the embedding of the chunk at that
position, and the finalized Text Store holds exactly the same ids mapped to
the chunk texts — the id sets of index and Text Store coincide. -/
theorem c1_build_index_id_correspondence {Emb : Type} (enc : List Char → Emb)
    (cs bs : Nat) (ipath : List Char) (docs : List (List Char)) :
    (buildIndexRun (fun ds => .ok (ds.map enc)) (fun _ => .ok ()) cs ipath
        (freshWriter bs) docs).err = none ∧
    (buildIndexRun (fun ds => .ok (ds.map enc)) (fun _ => .ok ()) cs ipath
        (freshWriter bs) docs).commits =
      docs.enum.map (fun p => (natStr p.1, enc p.2)) ∧
    (writerFinalize (buildIndexRun (fun ds => .ok (ds.map enc))
        (fun _ => .ok ()) cs ipath (freshWriter bs) docs).writer).db =
      docs.enum.map (fun p => (natStr p.1, p.2)) ∧
    (buildIndexRun (fun ds => .ok (ds.map enc)) (fun _ => .ok ()) cs ipath
        (freshWriter bs) docs).commits.map Prod.fst =
      (List.range docs.length).map natStr ∧
    (writerFinalize (buildIndexRun (fun ds => .ok (ds.map enc))
        (fun _ => .ok ()) cs ipath (freshWriter bs) docs).writer).db.map
        Prod.fst =
      (List.range docs.length).map natStr := by
  have heq : buildIndexRun (fun ds => .ok (ds.map enc)) (fun _ => .ok ())
      cs ipath (freshWriter bs) docs =
      windowedRun (fun ds => .ok (ds.map enc)) (fun _ => .ok ()) ipath 0 0 []
        (freshWriter bs) [] (windowsGo cs [] docs) := by
    have h0 := buildGo_eq_windowedRun (fun ds => .ok (ds.map enc))
      (fun _ => .ok ()) cs ipath docs [] 0 0 [] (freshWriter bs) []
    exact h0
  have hjw : (windowsGo cs ([] : List (List Char)) docs).join = docs := by
    simpa using windowsGo_join cs docs []
  have hn : ((writerContent (freshWriter bs) ++
      textPairs 0 ((windowsGo cs ([] : List (List Char)) docs).join)).map
        Prod.fst).Nodup := by
    rw [hjw]
    show ((([] : List (List Char × List Char)) ++ textPairs 0 docs).map
      Prod.fst).Nodup
    rw [List.nil_append]
    exact textPairs_keys_nodup 0 docs
  have hall := windowedRun_allOk enc ipath (windowsGo cs [] docs) 0 0 []
    (freshWriter bs) [] hn
  have hkeys : (textPairs 0 docs).map Prod.fst =
      (List.range docs.length).map natStr := by
    rw [textPairs_keys]
    refine List.map_congr_left ?_
    intro o _
    rw [Nat.zero_add]
  have hemb : embPairs enc 0 docs =
      docs.enum.map (fun p => (natStr p.1, enc p.2)) := rfl
  have htxt : textPairs 0 docs =
      docs.enum.map (fun p => (natStr p.1, p.2)) := rfl
  have hcommits : (buildIndexRun (fun ds => .ok (ds.map enc))
      (fun _ => .ok ()) cs ipath (freshWriter bs) docs).commits =
      docs.enum.map (fun p => (natStr p.1, enc p.2)) := by
    rw [heq, hall.2.1, hjw, List.nil_append, hemb]
  have hwcontent : writerContent (buildIndexRun (fun ds => .ok (ds.map enc))
      (fun _ => .ok ()) cs ipath (freshWriter bs) docs).writer =
      textPairs 0 docs := by
    rw [heq, hall.2.2.2.2, hjw]
    show ([] : List (List Char × List Char)) ++ textPairs 0 docs = _
    rw [List.nil_append]
  have hdb : (writerFinalize (buildIndexRun (fun ds => .ok (ds.map enc))
      (fun _ => .ok ()) cs ipath (freshWriter bs) docs).writer).db =
      docs.enum.map (fun p => (natStr p.1, p.2)) := by
    rw [writerFinalize_db _ (by rw [hwcontent]; exact textPairs_keys_nodup 0 docs),
      hwcontent, htxt]
  refine ⟨by rw [heq]; exact hall.1, hcommits, hdb, ?_, ?_⟩
  · rw [hcommits, ← hemb]
    rw [embPairs_keys, hkeys]
  · rw [hdb, ← htxt, hkeys]

/-- `winStart` of the head window is zero. -/
theorem winStart_cons_zero (wnd : List (List Char))
    (rest : List (List (List Char))) : winStart (wnd :: rest) 0 = 0 := rfl

/-- `winStart` after the head window shifts by the head's size. -/
theorem winStart_cons_succ (wnd : List (List Char))
    (rest : List (List (List Char))) (i : Nat) :
    winStart (wnd :: rest) (i + 1) = wnd.length + winStart rest i := by
  simp [winStart, List.take_succ_cons]

/-- First-failure characterisation of the windowed run: if the first `j`
windows process cleanly and window `j` fails, the run aborts at window `j`
with the surfaced error information, having attempted each of the first
`j + 1` windows exactly once, committed exactly the first `j` windows, and
left the writer with exactly the first `j` windows' text pairs. -/
theorem windowedRun_firstFail {Emb : Type}
    (encF : List (List Char) → Except Unit (List Emb))
    (ixF : List (List Char × Emb) → Except Unit Unit) (ipath : List Char) :
    ∀ (ws : List (List (List Char))) (j start cn : Nat)
      (ix : List (List Char × Emb)) (w : WriterState)
      (calls : List (List (List Char))),
      (∀ i, i < j → okWindow encF ixF (start + winStart ws i) (ws.getD i [])) →
      j < ws.length →
      badWindow encF ixF (start + winStart ws j) (ws.getD j []) →
      ((writerContent w ++ textPairs start (ws.take j).join).map
        Prod.fst).Nodup →
      ∃ e, (windowedRun encF ixF ipath start cn ix w calls ws).err = some e ∧
        e.chunkNumber = cn + j + 1 ∧
        e.indexPath = ipath ∧
        ((∃ er, encF (ws.getD j []) = .error er) →
          e = ⟨.encode, cn + j + 1,
            some (start + winStart ws j + 1,
              start + winStart ws j + (ws.getD j []).length), ipath⟩) ∧
        ((∃ embs er, encF (ws.getD j []) = .ok embs ∧
            ixF ((idsFrom (start + winStart ws j) (ws.getD j [])).zip embs) =
              .error er) →
          e = ⟨.indexAdd, cn + j + 1, none, ipath⟩) ∧
        (windowedRun encF ixF ipath start cn ix w calls ws).encCalls =
          calls ++ ws.take (j + 1) ∧
        (windowedRun encF ixF ipath start cn ix w calls ws).commits =
          ix ++ okCommitsPre encF start (ws.take j) ∧
        writerContent
            (windowedRun encF ixF ipath start cn ix w calls ws).writer =
          writerContent w ++ textPairs start (ws.take j).join ∧
        (windowedRun encF ixF ipath start cn ix w calls ws).total =
          start + (ws.take j).join.length := by
  intro ws
  induction ws with
  | nil =>
    intro j start cn ix w calls _ hj _ _
    simp at hj
  | cons wnd rest ih =>
    intro j start cn ix w calls hok hj hbad hnod
    cases j with
    | zero =>
      have h0 : start + winStart (wnd :: rest) 0 = start := by
        simp [winStart_cons_zero]
      rw [h0] at hbad
      have hg0 : (wnd :: rest).getD 0 [] = wnd := rfl
      rw [hg0] at hbad
      rcases hbad with ⟨er, henc⟩ | ⟨embs, er, henc, hix⟩
      · have hred : windowedRun encF ixF ipath start cn ix w calls
            (wnd :: rest) =
            ⟨ix, w, calls ++ [wnd],
              some ⟨.encode, cn + 1, some (start + 1, start + wnd.length),
                ipath⟩, start⟩ := by
          simp only [windowedRun, henc]
        refine ⟨⟨.encode, cn + 1, some (start + 1, start + wnd.length),
          ipath⟩, ?_, rfl, rfl, ?_, ?_, ?_, ?_, ?_, ?_⟩
        · rw [hred]
        · intro _
          simp [winStart_cons_zero]
        · rintro ⟨embs2, er2, henc2, -⟩
          rw [hg0] at henc2
          rw [henc] at henc2
          cases henc2
        · rw [hred]
          simp
        · rw [hred]
          simp [okCommitsPre]
        · rw [hred]
          simp [textPairs]
        · rw [hred]
          simp
      · have hred : windowedRun encF ixF ipath start cn ix w calls
            (wnd :: rest) =
            ⟨ix, w, calls ++ [wnd],
              some ⟨.indexAdd, cn + 1, none, ipath⟩, start⟩ := by
          simp only [windowedRun, henc, hix]
        refine ⟨⟨.indexAdd, cn + 1, none, ipath⟩, ?_, rfl, rfl, ?_, ?_, ?_,
          ?_, ?_, ?_⟩
        · rw [hred]
        · rintro ⟨er2, henc2⟩
          rw [hg0] at henc2
          rw [henc] at henc2
          cases henc2
        · intro _
          rfl
        · rw [hred]
          simp
        · rw [hred]
          simp [okCommitsPre]
        · rw [hred]
          simp [textPairs]
        · rw [hred]
          simp
    | succ j2 =>
      have h0 : start + winStart (wnd :: rest) 0 = start := by
        simp [winStart_cons_zero]
      obtain ⟨embs, henc, hix⟩ := hok 0 (by omega)
      rw [h0] at hix
      have hg0 : (wnd :: rest).getD 0 [] = wnd := rfl
      rw [hg0] at henc hix
      have hred : windowedRun encF ixF ipath start cn ix w calls
          (wnd :: rest) =
          windowedRun encF ixF ipath (start + wnd.length) (cn + 1)
            (ix ++ (idsFrom start wnd).zip embs)
            (writerAddDocuments w wnd start) (calls ++ [wnd]) rest := by
        simp only [windowedRun, henc, hix]
      have htake : ((wnd :: rest).take (j2 + 1)).join =
          wnd ++ (rest.take j2).join := by
        simp [List.take_succ_cons]
      rw [htake, textPairs_append] at hnod
      have hwc := writerAddDocuments_content wnd w start (by
        refine List.Nodup.sublist ?_ hnod
        refine List.Sublist.map Prod.fst ?_
        rw [← List.append_assoc]
        exact List.sublist_append_left _ _)
      have hok2 : ∀ i, i < j2 → okWindow encF ixF
          (start + wnd.length + winStart rest i) (rest.getD i []) := by
        intro i hi
        have := hok (i + 1) (by omega)
        rw [winStart_cons_succ] at this
        rw [show start + (wnd.length + winStart rest i) =
          start + wnd.length + winStart rest i from by omega] at this
        exact this
      have hbad2 : badWindow encF ixF
          (start + wnd.length + winStart rest j2) (rest.getD j2 []) := by
        have := hbad
        rw [winStart_cons_succ] at this
        rw [show start + (wnd.length + winStart rest j2) =
          start + wnd.length + winStart rest j2 from by omega] at this
        exact this
      have hnod2 : ((writerContent (writerAddDocuments w wnd start) ++
          textPairs (start + wnd.length) (rest.take j2).join).map
            Prod.fst).Nodup := by
        rw [hwc.1, List.append_assoc]
        exact hnod
      obtain ⟨e, he1, he2, he3, he4, he5, he6, he7, he8, he9⟩ :=
        ih j2 (start + wnd.length) (cn + 1)
          (ix ++ (idsFrom start wnd).zip embs)
          (writerAddDocuments w wnd start) (calls ++ [wnd]) hok2
          (by simp at hj; omega) hbad2 hnod2
      refine ⟨e, ?_, ?_, he3, ?_, ?_, ?_, ?_, ?_, ?_⟩
      · rw [hred]
        exact he1
      · rw [he2]
        omega
      · intro hant
        rw [he4 (by simpa using hant), winStart_cons_succ]
        have harith : start + wnd.length + winStart rest j2 =
            start + (wnd.length + winStart rest j2) := by omega
        rw [harith]
        have hcn : cn + 1 + j2 + 1 = cn + (j2 + 1) + 1 := by omega
        rw [hcn]
        rfl
      · intro hant
        rw [he5 ?_]
        · have hcn : cn + 1 + j2 + 1 = cn + (j2 + 1) + 1 := by omega
          rw [hcn]
        · obtain ⟨embs2, er2, ha, hb⟩ := hant
          refine ⟨embs2, er2, by simpa using ha, ?_⟩
          rw [winStart_cons_succ] at hb
          rw [show start + wnd.length + winStart rest j2 =
            start + (wnd.length + winStart rest j2) from by omega]
          simpa using hb
      · rw [hred, he6]
        simp [List.take_succ_cons]
      · rw [hred, he7]
        have hoc : okCommitsPre encF start ((wnd :: rest).take (j2 + 1)) =
            (idsFrom start wnd).zip embs ++
              okCommitsPre encF (start + wnd.length) (rest.take j2) := by
          rw [List.take_succ_cons]
          show (idsFrom start wnd).zip ((encF wnd).toOption.getD []) ++ _ = _
          rw [henc]
          rfl
        rw [hoc]
        simp
      · rw [hred, he8, hwc.1, htake, textPairs_append]
        simp
      · rw [hred, he9, htake]
        simp [Nat.add_assoc]

/-- C7 (amended): if the encoder or the index engine raises while processing
any accumulation window, `build_index` aborts the whole run with an error
naming the failed window's chunk number and the index location (for encoder
errors the surfaced information additionally names the failed window's
document range; for index-add errors no document range is surfaced); the
failed window was attempted exactly once and no later window was ever
encoded (no retry), and the index commits and Text Store writes of the
completed prior windows are left in place (no cleanup). -/
theorem c7_build_index_abort {Emb : Type}
    (encF : List (List Char) → Except Unit (List Emb))
    (ixF : List (List Char × Emb) → Except Unit Unit)
    (cs bs : Nat) (ipath : List Char) (docs : List (List Char)) (j : Nat)
    (hok : ∀ i, i < j →
      okWindow encF ixF (winStart (windowsGo cs [] docs) i)
        ((windowsGo cs [] docs).getD i []))
    (hj : j < (windowsGo cs ([] : List (List Char)) docs).length)
    (hbad : badWindow encF ixF (winStart (windowsGo cs [] docs) j)
      ((windowsGo cs [] docs).getD j [])) :
    ∃ e, (buildIndexRun encF ixF cs ipath (freshWriter bs) docs).err =
        some e ∧
      e.chunkNumber = j + 1 ∧
      e.indexPath = ipath ∧
      ((∃ er, encF ((windowsGo cs [] docs).getD j []) = .error er) →
        e = ⟨.encode, j + 1,
          some (winStart (windowsGo cs [] docs) j + 1,
            winStart (windowsGo cs [] docs) j +
              ((windowsGo cs [] docs).getD j []).length), ipath⟩) ∧
      ((∃ embs er, encF ((windowsGo cs [] docs).getD j []) = .ok embs ∧
          ixF ((idsFrom (winStart (windowsGo cs [] docs) j)
            ((windowsGo cs [] docs).getD j [])).zip embs) = .error er) →
        e = ⟨.indexAdd, j + 1, none, ipath⟩) ∧
      (buildIndexRun encF ixF cs ipath (freshWriter bs) docs).encCalls =
        (windowsGo cs [] docs).take (j + 1) ∧
      (buildIndexRun encF ixF cs ipath (freshWriter bs) docs).commits =
        okCommitsPre encF 0 ((windowsGo cs [] docs).take j) ∧
      writerContent
          (buildIndexRun encF ixF cs ipath (freshWriter bs) docs).writer =
        textPairs 0 ((windowsGo cs [] docs).take j).join ∧
      (buildIndexRun encF ixF cs ipath (freshWriter bs) docs).total =
        ((windowsGo cs [] docs).take j).join.length := by
  have heq : buildIndexRun encF ixF cs ipath (freshWriter bs) docs =
      windowedRun encF ixF ipath 0 0 [] (freshWriter bs) []
        (windowsGo cs [] docs) :=
    buildGo_eq_windowedRun encF ixF cs ipath docs [] 0 0 [] (freshWriter bs) []
  have hok0 : ∀ i, i < j →
      okWindow encF ixF (0 + winStart (windowsGo cs [] docs) i)
        ((windowsGo cs [] docs).getD i []) := by
    intro i hi
    rw [Nat.zero_add]
    exact hok i hi
  have hbad0 : badWindow encF ixF (0 + winStart (windowsGo cs [] docs) j)
      ((windowsGo cs [] docs).getD j []) := by
    rw [Nat.zero_add]
    exact hbad
  have hnod : ((writerContent (freshWriter bs) ++
      textPairs 0 (((windowsGo cs [] docs).take j).join)).map
        Prod.fst).Nodup := by
    show ((([] : List (List Char × List Char)) ++ _).map Prod.fst).Nodup
    rw [List.nil_append]
    exact textPairs_keys_nodup 0 _
  obtain ⟨e, he1, he2, he3, he4, he5, he6, he7, he8, he9⟩ :=
    windowedRun_firstFail encF ixF ipath (windowsGo cs [] docs) j 0 0 []
      (freshWriter bs) [] hok0 hj hbad0 hnod
  refine ⟨e, ?_, by rw [he2]; omega, he3, ?_, ?_, ?_, ?_, ?_, ?_⟩
  · rw [heq]
    exact he1
  · intro hant
    rw [he4 hant]
    simp
  · intro hant
    rw [he5 (by rwa [Nat.zero_add])]
    simp
  · rw [heq, he6, List.nil_append]
  · rw [heq, he7, List.nil_append]
  · rw [heq, he8]
    show ([] : List (List Char × List Char)) ++ _ = _
    rw [List.nil_append]
  · rw [heq, he9, Nat.zero_add]

/-- C7 counterexample to the claim as stated: when the *index engine* raises
(here on the very first window), the surfaced error carries no
document/chunk range at all — only the chunk number and the index path. -/
theorem c7_counterexample :
    (@buildIndexRun Unit (fun ds => .ok (ds.map (fun _ => ())))
        (fun _ => .error ()) 1 "p".data (freshWriter 10) [['a']]).err =
      some ⟨.indexAdd, 1, none, "p".data⟩ := by
  rfl

/-- Witness for `c7_build_index_abort`: two windows of one chunk each, the
index engine rejecting exactly the second window's ids. -/
theorem c7_build_index_abort_witness :
    (∀ i, i < 1 →
      @okWindow Unit (fun ds => .ok (ds.map (fun _ => ())))
        (fun entries =>
          if entries.map Prod.fst = [natStr 1] then .error () else .ok ())
        (winStart (windowsGo 1 [] [['a'], ['b']]) i)
        ((windowsGo 1 [] [['a'], ['b']]).getD i [])) ∧
    1 < (windowsGo 1 ([] : List (List Char)) [['a'], ['b']]).length ∧
    @badWindow Unit (fun ds => .ok (ds.map (fun _ => ())))
      (fun entries =>
        if entries.map Prod.fst = [natStr 1] then .error () else .ok ())
      (winStart (windowsGo 1 [] [['a'], ['b']]) 1)
      ((windowsGo 1 [] [['a'], ['b']]).getD 1 []) ∧
    (∃ e, (@buildIndexRun Unit (fun ds => .ok (ds.map (fun _ => ())))
        (fun entries =>
          if entries.map Prod.fst = [natStr 1] then .error () else .ok ())
        1 "p".data (freshWriter 10) [['a'], ['b']]).err = some e ∧
      e.chunkNumber = 1 + 1 ∧
      e.indexPath = "p".data ∧
      e = ⟨.indexAdd, 1 + 1, none, "p".data⟩ ∧
      (@buildIndexRun Unit (fun ds => .ok (ds.map (fun _ => ())))
        (fun entries =>
          if entries.map Prod.fst = [natStr 1] then .error () else .ok ())
        1 "p".data (freshWriter 10) [['a'], ['b']]).encCalls =
        (windowsGo 1 [] [['a'], ['b']]).take (1 + 1) ∧
      (@buildIndexRun Unit (fun ds => .ok (ds.map (fun _ => ())))
        (fun entries =>
          if entries.map Prod.fst = [natStr 1] then .error () else .ok ())
        1 "p".data (freshWriter 10) [['a'], ['b']]).commits =
        okCommitsPre (fun ds => .ok (ds.map (fun _ => ()))) 0
          ((windowsGo 1 [] [['a'], ['b']]).take 1) ∧
      writerContent (@buildIndexRun Unit
        (fun ds => .ok (ds.map (fun _ => ())))
        (fun entries =>
          if entries.map Prod.fst = [natStr 1] then .error () else .ok ())
        1 "p".data (freshWriter 10) [['a'], ['b']]).writer =
        textPairs 0 ((windowsGo 1 [] [['a'], ['b']]).take 1).join ∧
      (@buildIndexRun Unit (fun ds => .ok (ds.map (fun _ => ())))
        (fun entries =>
          if entries.map Prod.fst = [natStr 1] then .error () else .ok ())
        1 "p".data (freshWriter 10) [['a'], ['b']]).total =
        ((windowsGo 1 [] [['a'], ['b']]).take 1).join.length) := by
  refine ⟨?_, by decide, Or.inr ⟨[()], (), rfl, rfl⟩, ?_⟩
  · intro i hi
    interval_cases i
    exact ⟨[()], rfl, rfl⟩
  · obtain ⟨e, h1, h2, h3, h4, h5, h6, h7, h8, h9⟩ :=
      @c7_build_index_abort Unit
        (fun ds => .ok (ds.map (fun _ => ())))
        (fun entries =>
          if entries.map Prod.fst = [natStr 1] then .error () else .ok ())
        1 10 "p".data [['a'], ['b']] 1
        (by intro i hi; interval_cases i; exact ⟨[()], rfl, rfl⟩)
        (by decide)
        (Or.inr ⟨[()], (), rfl, rfl⟩)
    exact ⟨e, h1, h2, h3, h5 ⟨[()], (), rfl, rfl⟩, h6, h7, h8, h9⟩

/-! ## Result ordering: the `(-score, pid)` key -/

/-- `lexLe` is total. -/
theorem lexLe_total : ∀ a b : List Char, lexLe a b = true ∨ lexLe b a = true := by
  intro a
  induction a with
  | nil => intro b; left; rfl
  | cons x as ih =>
    intro b
    cases b with
    | nil => right; rfl
    | cons y bs =>
      simp only [lexLe]
      rcases lt_trichotomy x y with h | h | h
      · left
        rw [if_pos h]
      · subst h
        rcases ih bs with h2 | h2
        · left
          rw [if_neg (lt_irrefl x), if_neg (lt_irrefl x)]
          exact h2
        · right
          rw [if_neg (lt_irrefl x), if_neg (lt_irrefl x)]
          exact h2
      · right
        rw [if_pos h]

/-- `lexLe` is antisymmetric. -/
theorem lexLe_antisymm : ∀ a b : List Char,
    lexLe a b = true → lexLe b a = true → a = b := by
  intro a
  induction a with
  | nil =>
    intro b _ hba
    cases b with
    | nil => rfl
    | cons y bs => simp [lexLe] at hba
  | cons x as ih =>
    intro b hab hba
    cases b with
    | nil => simp [lexLe] at hab
    | cons y bs =>
      simp only [lexLe] at hab hba
      rcases lt_trichotomy x y with h | h | h
      · rw [if_neg (not_lt_of_lt h), if_pos h] at hba
        cases hba
      · subst h
        rw [if_neg (lt_irrefl x), if_neg (lt_irrefl x)] at hab hba
        rw [ih bs hab hba]
      · rw [if_neg (not_lt_of_lt h), if_pos h] at hab
        cases hab

/-- `lexLe` is transitive. -/
theorem lexLe_trans : ∀ a b c : List Char,
    lexLe a b = true → lexLe b c = true → lexLe a c = true := by
  intro a
  induction a with
  | nil => intro b c _ _; rfl
  | cons x as ih =>
    intro b c hab hbc
    cases b with
    | nil => simp [lexLe] at hab
    | cons y bs =>
      cases c with
      | nil => simp [lexLe] at hbc
      | cons z cs =>
        simp only [lexLe] at hab hbc ⊢
        rcases lt_trichotomy x y with h1 | h1 | h1
        · rcases lt_trichotomy y z with h2 | h2 | h2
          · rw [if_pos (lt_trans h1 h2)]
          · subst h2
            rw [if_pos h1]
          · rw [if_neg (not_lt_of_lt h2), if_pos h2] at hbc
            cases hbc
        · subst h1
          rcases lt_trichotomy x z with h2 | h2 | h2
          · rw [if_pos h2]
          · subst h2
            rw [if_neg (lt_irrefl x), if_neg (lt_irrefl x)] at hab hbc ⊢
            exact ih bs cs hab hbc
          · rw [if_neg (not_lt_of_lt h2), if_pos h2] at hbc
            cases hbc
        · rw [if_neg (not_lt_of_lt h1), if_pos h1] at hab
          cases hab

/-- `resLe` unfolded to its order meaning. -/
theorem resLe_iff (x y : SearchResult) :
    resLe x y = true ↔
      y.score < x.score ∨ (x.score = y.score ∧ lexLe x.pid y.pid = true) := by
  simp [resLe, Bool.or_eq_true, Bool.and_eq_true, decide_eq_true_iff]

/-- The final sort key is total. -/
theorem resLe_total : ∀ x y : SearchResult,
    (resLe x y || resLe y x) = true := by
  intro x y
  rw [Bool.or_eq_true, resLe_iff, resLe_iff]
  rcases lt_trichotomy x.score y.score with h | h | h
  · right; left; exact h
  · rcases lexLe_total x.pid y.pid with h2 | h2
    · left; right; exact ⟨h, h2⟩
    · right; right; exact ⟨h.symm, h2⟩
  · left; left; exact h

/-- The final sort key is transitive. -/
theorem resLe_trans : ∀ x y z : SearchResult,
    resLe x y = true → resLe y z = true → resLe x z = true := by
  intro x y z hxy hyz
  rw [resLe_iff] at hxy hyz ⊢
  rcases hxy with h1 | ⟨h1, h1l⟩
  · rcases hyz with h2 | ⟨h2, -⟩
    · left; exact lt_trans h2 h1
    · left; rw [← h2]; exact h1
  · rcases hyz with h2 | ⟨h2, h2l⟩
    · left; rw [h1]; exact h2
    · right; exact ⟨h1.trans h2, lexLe_trans _ _ _ h1l h2l⟩

/-- `attachProbs` does not change the `(id, score)` projection. -/
theorem attachProbs_pidScore :
    ∀ (items : List SearchResult) (probs : List ℚ),
      (attachProbs items probs).map pidScore = items.map pidScore := by
  intro items
  induction items with
  | nil =>
    intro probs
    simp [attachProbs]
  | cons it its ih =>
    intro probs
    cases probs with
    | nil => simp [attachProbs]
    | cons p ps =>
      show ({ it with prob := some p } :: attachProbs its ps).map pidScore = _
      rw [List.map_cons, List.map_cons, ih ps]
      rfl

/-- The pre-sort ranked list projects to exactly the engine's `(id, score)`
pairs, in engine order. -/
theorem resultsToTopk_perm (expF : ℚ → ℚ)
    (collection : Option (List Char → Option (List Char)))
    (inner : List (List Char × ℚ)) :
    ((resultsToTopk expF collection inner).map pidScore).Perm inner := by
  unfold resultsToTopk
  have hbase : ∀ (l : List SearchResult), l.map pidScore =
      (l.map pidScore) := fun _ => rfl
  have h1 : ((if (inner.map (fun it => it.2)).isEmpty then
      inner.enum.map (fun p =>
        ({ pid := p.2.1, rank := p.1, score := p.2.2,
           text := match collection with
                   | none => none
                   | some col => col p.2.1,
           prob := none } : SearchResult))
      else attachProbs (inner.enum.map (fun p =>
        ({ pid := p.2.1, rank := p.1, score := p.2.2,
           text := match collection with
                   | none => none
                   | some col => col p.2.1,
           prob := none } : SearchResult)))
        (softmaxProbs expF (inner.map (fun it => it.2)))).map pidScore) =
      inner := by
    have henum : (inner.enum.map (fun p =>
        ({ pid := p.2.1, rank := p.1, score := p.2.2,
           text := match collection with
                   | none => none
                   | some col => col p.2.1,
           prob := none } : SearchResult))).map pidScore = inner := by
      rw [List.map_map]
      have : (pidScore ∘ fun p : Nat × (List Char × ℚ) =>
          ({ pid := p.2.1, rank := p.1, score := p.2.2,
             text := match collection with
                     | none => none
                     | some col => col p.2.1,
             prob := none } : SearchResult)) =
          fun p : Nat × (List Char × ℚ) => p.2 := by
        funext p
        rfl
      rw [this]
      exact List.enum_map_snd inner
    by_cases hemp : (inner.map (fun it => it.2)).isEmpty
    · rw [if_pos hemp]
      exact henum
    · rw [if_neg hemp, attachProbs_pidScore]
      exact henum
  calc ((List.mergeSort _ resLe).map pidScore).Perm _ :=
    (List.mergeSort_perm _ resLe).map pidScore
  _ = inner := h1

/-- The final ranked list is sorted under the sort key. -/
theorem resultsToTopk_sorted (expF : ℚ → ℚ)
    (collection : Option (List Char → Option (List Char)))
    (inner : List (List Char × ℚ)) :
    List.Pairwise (fun a b => resLe a b = true)
      (resultsToTopk expF collection inner) :=
  List.sorted_mergeSort resLe_trans resLe_total _

/-- Its `(id, score)` projection is sorted under `pairDescLe`. -/
theorem resultsToTopk_sorted_pairs (expF : ℚ → ℚ)
    (collection : Option (List Char → Option (List Char)))
    (inner : List (List Char × ℚ)) :
    List.Pairwise pairDescLe
      ((resultsToTopk expF collection inner).map pidScore) := by
  refine List.Pairwise.map pidScore ?_
    (resultsToTopk_sorted expF collection inner)
  intro a b hab
  rw [resLe_iff] at hab
  exact hab

/-- Two `pairDescLe`-sorted lists that are permutations of each other are
equal (the key is antisymmetric on `(id, score)` pairs). -/
theorem sorted_pairs_unique {l1 l2 : List (List Char × ℚ)}
    (hp : l1.Perm l2) (h1 : List.Pairwise pairDescLe l1)
    (h2 : List.Pairwise pairDescLe l2) : l1 = l2 := by
  haveI : IsAntisymm (List Char × ℚ) pairDescLe := ⟨by
    intro p q hpq hqp
    rcases hpq with h | ⟨h, hl⟩
    · rcases hqp with h3 | ⟨h3, -⟩
      · exact absurd h (lt_asymm h3)
      · rw [h3] at h
        exact absurd h (lt_irrefl _)
    · rcases hqp with h3 | ⟨h3, hl3⟩
      · rw [h] at h3
        exact absurd h3 (lt_irrefl _)
      · exact Prod.ext (lexLe_antisymm _ _ hl hl3) h⟩
  exact List.eq_of_perm_of_sorted hp h1 h2

/-- C4: the ranked list produced by `_results_to_topk` is sorted by
descending score with ties broken by ascending (lexicographically smaller
first) id, and its `(id, score)` sequence is a deterministic function of the
`(id, score)` multiset — independent of the engine's tie order, of the
softmax exponential, and of the text collection. -/
theorem c4_results_order_deterministic :
    ∀ (expF : ℚ → ℚ) (col : Option (List Char → Option (List Char)))
      (inner : List (List Char × ℚ)),
      List.Pairwise (fun a b => b.score < a.score ∨
          (a.score = b.score ∧ lexLe a.pid b.pid = true))
        (resultsToTopk expF col inner) ∧
      (∀ (expF2 : ℚ → ℚ) (col2 : Option (List Char → Option (List Char)))
        (inner2 : List (List Char × ℚ)), inner.Perm inner2 →
        (resultsToTopk expF col inner).map pidScore =
          (resultsToTopk expF2 col2 inner2).map pidScore) := by
  intro expF col inner
  constructor
  · refine (resultsToTopk_sorted expF col inner).imp ?_
    intro a b hab
    rw [resLe_iff] at hab
    exact hab
  · intro expF2 col2 inner2 hperm
    refine sorted_pairs_unique ?_ (resultsToTopk_sorted_pairs expF col inner)
      (resultsToTopk_sorted_pairs expF2 col2 inner2)
    exact (resultsToTopk_perm expF col inner).trans
      (hperm.trans (resultsToTopk_perm expF2 col2 inner2).symm)

/-- Witness for `c4_results_order_deterministic`: a tied result set fed to
the service in two different engine orders (and with different softmax and
collection inputs) yields the same ranked `(id, score)` sequence. -/
theorem c4_results_order_deterministic_witness :
    ([(['b'], (1 : ℚ)), (['a'], 1)] : List (List Char × ℚ)).Perm
      [(['a'], (1 : ℚ)), (['b'], 1)] ∧
    (resultsToTopk (fun x => x) none [(['b'], (1 : ℚ)), (['a'], 1)]).map
        pidScore =
      (resultsToTopk (fun x => x + 1) (some (fun _ => none))
        [(['a'], (1 : ℚ)), (['b'], 1)]).map pidScore :=
  ⟨by decide,
    (c4_results_order_deterministic (fun x => x) none
      [(['b'], (1 : ℚ)), (['a'], 1)]).2 (fun x => x + 1)
      (some (fun _ => none)) [(['a'], (1 : ℚ)), (['b'], 1)] (by decide)⟩

/-! ## Softmax probabilities -/

/-- C5: for every non-empty result set, `_results_to_topk` assigns the
probabilities `expF(score[i]) / Σ expF(score[j])` over the returned set when
that sum is positive and the uniform distribution `1/n` otherwise, and in
both cases the probabilities sum to exactly 1 (in the exact arithmetic of
the embedding).  `expF` abstracts `math.exp`, including the possibility of
underflow to zero that motivates the code's fallback branch. -/
theorem c5_softmax_sums_to_one (expF : ℚ → ℚ) (scores : List ℚ)
    (hne : scores ≠ []) :
    (softmaxProbs expF scores).length = scores.length ∧
    (softmaxProbs expF scores).sum = 1 ∧
    (0 < (scores.map expF).sum → softmaxProbs expF scores =
      scores.map (fun t => expF t / (scores.map expF).sum)) ∧
    ((scores.map expF).sum ≤ 0 → softmaxProbs expF scores =
      List.replicate scores.length (1 / (scores.length : ℚ))) := by
  have hn0 : (scores.length : ℚ) ≠ 0 := by
    rw [Ne, Nat.cast_eq_zero]
    intro h
    exact hne (List.eq_nil_of_length_eq_zero h)
  have hdiv : ∀ (l : List ℚ) (s : ℚ),
      (l.map (fun p => p / s)).sum = l.sum / s := by
    intro l s
    simp only [div_eq_mul_inv]
    have := List.sum_map_mul_right l (fun b => b) s⁻¹
    simpa using this
  have hsm : softmaxProbs expF scores =
      if 0 < (scores.map expF).sum then
        (scores.map expF).map (fun p => p / (scores.map expF).sum)
      else
        List.replicate (scores.map expF).length
          (1 / (((scores.map expF).length : Nat) : ℚ)) := rfl
  by_cases hpos : 0 < (scores.map expF).sum
  · rw [hsm, if_pos hpos]
    refine ⟨by simp, ?_, ?_, ?_⟩
    · rw [hdiv]
      exact div_self (ne_of_gt hpos)
    · intro _
      rw [List.map_map]
      rfl
    · intro hle
      exact absurd hpos (not_lt.mpr hle)
  · rw [hsm, if_neg hpos]
    push_neg at hpos
    refine ⟨by simp, ?_, ?_, by intro _; simp⟩
    · rw [List.sum_replicate, List.length_map, nsmul_eq_mul, mul_one_div]
      exact div_self hn0
    · intro hpos2
      exact absurd hpos2 (not_lt.mpr hpos)

/-- Witness for `c5_softmax_sums_to_one` at a concrete two-score set. -/
theorem c5_softmax_sums_to_one_witness :
    ([(1 : ℚ), 3] ≠ []) ∧
    ((softmaxProbs (fun x => x) [(1 : ℚ), 3]).length = [(1 : ℚ), 3].length ∧
      (softmaxProbs (fun x => x) [(1 : ℚ), 3]).sum = 1 ∧
      (0 < ([(1 : ℚ), 3].map (fun x => x)).sum →
        softmaxProbs (fun x => x) [(1 : ℚ), 3] =
          [(1 : ℚ), 3].map
            (fun t => (fun x => x) t / ([(1 : ℚ), 3].map (fun x => x)).sum)) ∧
      (([(1 : ℚ), 3].map (fun x => x)).sum ≤ 0 →
        softmaxProbs (fun x => x) [(1 : ℚ), 3] =
          List.replicate [(1 : ℚ), 3].length
            (1 / (([(1 : ℚ), 3].length : Nat) : ℚ)))) :=
  ⟨by decide, c5_softmax_sums_to_one (fun x => x) [(1 : ℚ), 3] (by decide)⟩

/-! ## The query cache -/

/-- C6: against one service instance (a fresh `lru_cache` of capacity 1024),
issuing the same `(query, k)` twice invokes the encoder and index engine
exactly once — the first call invokes, the second is served from the cache
with the identical response — while a request differing in the query or in
`k` invokes them again. -/
theorem c6_query_cache (V : Type) (f : List Char × ℤ → V) (q : List Char)
    (k : ℤ) :
    (lruGet f (emptyLru (List Char × ℤ) V 1024) (q, k)).invoked = true ∧
    (lruGet f (lruGet f (emptyLru (List Char × ℤ) V 1024) (q, k)).state
      (q, k)).invoked = false ∧
    (lruGet f (lruGet f (emptyLru (List Char × ℤ) V 1024) (q, k)).state
      (q, k)).value = (lruGet f (emptyLru (List Char × ℤ) V 1024)
        (q, k)).value ∧
    (∀ (q2 : List Char) (k2 : ℤ), (q2, k2) ≠ (q, k) →
      (lruGet f (lruGet f (emptyLru (List Char × ℤ) V 1024) (q, k)).state
        (q2, k2)).invoked = true) := by
  have h1 : lruGet f (emptyLru (List Char × ℤ) V 1024) (q, k) =
      ⟨f (q, k), ⟨1024, [((q, k), f (q, k))]⟩, true⟩ := by
    unfold lruGet emptyLru
    simp only [List.find?]
    rw [List.take_of_length_le (by simp)]
  refine ⟨by rw [h1], ?_, ?_, ?_⟩
  · rw [h1]
    unfold lruGet
    simp [List.find?_cons]
  · rw [h1]
    unfold lruGet
    simp [List.find?_cons]
  · intro q2 k2 hne
    rw [h1]
    unfold lruGet
    simp [List.find?_cons, Ne.symm hne]

/-- Witness for `c6_query_cache` at concrete queries. -/
theorem c6_query_cache_witness :
    (lruGet (fun _ => (0 : Nat)) (emptyLru (List Char × ℤ) Nat 1024)
      (['a'], 0)).invoked = true ∧
    (lruGet (fun _ => (0 : Nat))
      (lruGet (fun _ => (0 : Nat)) (emptyLru (List Char × ℤ) Nat 1024)
        (['a'], 0)).state (['a'], 0)).invoked = false ∧
    ((['b'], (0 : ℤ)) ≠ ((['a'] : List Char), (0 : ℤ))) ∧
    (lruGet (fun _ => (0 : Nat))
      (lruGet (fun _ => (0 : Nat)) (emptyLru (List Char × ℤ) Nat 1024)
        (['a'], 0)).state (['b'], 0)).invoked = true :=
  ⟨(c6_query_cache Nat (fun _ => 0) ['a'] 0).1,
    (c6_query_cache Nat (fun _ => 0) ['a'] 0).2.1,
    by decide,
    (c6_query_cache Nat (fun _ => 0) ['a'] 0).2.2.2 ['b'] 0 (by decide)⟩

/-! ## Directory ingestion -/

/-- C8: `prepare_from_directory`'s `try/except` around the cache branch
wraps only the construction of the iterator closure and the `return`,
neither of which can raise; the lazy cache read happens at iteration time,
outside the `try`, so a cache read failure propagates to the consumer of the
dataset instead of triggering the re-extraction fallback — the fallback is
dead code, contradicting the code's own comment and the spec. -/
theorem c8_cache_read_error_propagates (e : Unit) (files : List SrcFile) :
    prepareFromDirectoryIter true (.error e) files = .error e :=
  rfl

/-- A directory scan in which every `.txt`/`.md` read succeeds completes the
enumeration and writes every file's (stripped, non-empty) contribution. -/
theorem scanFiles_ok (files : List SrcFile)
    (h : ∀ f ∈ files, f.kind = .txtmd → f.content.isOk = true) :
    scanFiles files = (extractedTexts files, none) := by
  induction files with
  | nil => rfl
  | cons f rest ih =>
    have hrest := ih (fun g hg => h g (List.mem_cons_of_mem f hg))
    cases hk : f.kind with
    | other =>
      simp only [scanFiles, extractedTexts, hk]
      exact hrest
    | rich =>
      simp only [scanFiles, extractedTexts, hk, hrest]
    | txtmd =>
      have hok := h f (List.mem_cons_self f rest) hk
      cases hc : f.content with
      | error e => rw [hc] at hok; cases hok
      | ok t =>
        simp only [scanFiles, extractedTexts, hk, hc, readTxtOrMdR,
          Except.map, hrest, Except.toOption, Option.getD]

/-- C9 (amended): during directory ingestion, a rich-format file's
extraction failure is caught, contributes empty text (filtered out), and
never aborts the enumeration — provided every `.txt`/`.md` read succeeds,
the scan completes and the dataset is the delimiter-split of exactly the
in-order contributions of all enumerated files.  (As originally stated —
for *every* file — the claim is false: a `.txt`/`.md` read failure aborts
the cache-writing loop, see the counterexample.) -/
theorem c9_extraction_failures_recovered (files : List SrcFile)
    (h : ∀ f ∈ files, f.kind = .txtmd → f.content.isOk = true) :
    scanFiles files = (extractedTexts files, none) ∧
    (∀ r : Except Unit (List Char),
      prepareFromDirectoryIter false r files =
        .ok (datasetOfTexts (extractedTexts files))) := by
  refine ⟨scanFiles_ok files h, ?_⟩
  intro r
  show Except.ok (datasetOfTexts (scanFiles files).1) = _
  rw [scanFiles_ok files h]

/-- C9 counterexample to the claim as stated: a `.txt` file whose read
raises aborts the scan, and the later file's document does not appear in
the dataset. -/
theorem c9_counterexample :
    scanFiles [⟨.txtmd, .error ()⟩, ⟨.txtmd, .ok ['B']⟩] = ([], some ()) ∧
    extractedTexts [⟨.txtmd, .error ()⟩, ⟨.txtmd, .ok ['B']⟩] = [['B']] ∧
    prepareFromDirectoryIter false (.ok [])
      [⟨.txtmd, .error ()⟩, ⟨.txtmd, .ok ['B']⟩] = .ok [] := by
  refine ⟨rfl, by decide, by decide⟩

/-- Witness for `c9_extraction_failures_recovered`: a failing rich file
followed by a healthy `.txt` file — the later file's document still appears.
-/
theorem c9_extraction_failures_recovered_witness :
    (∀ f ∈ [(⟨.rich, .error ()⟩ : SrcFile), ⟨.txtmd, .ok ['B']⟩],
      f.kind = .txtmd → f.content.isOk = true) ∧
    scanFiles [(⟨.rich, .error ()⟩ : SrcFile), ⟨.txtmd, .ok ['B']⟩] =
      (extractedTexts [(⟨.rich, .error ()⟩ : SrcFile), ⟨.txtmd, .ok ['B']⟩],
        none) ∧
    prepareFromDirectoryIter false (.ok [])
      [(⟨.rich, .error ()⟩ : SrcFile), ⟨.txtmd, .ok ['B']⟩] =
      .ok (datasetOfTexts (extractedTexts
        [(⟨.rich, .error ()⟩ : SrcFile), ⟨.txtmd, .ok ['B']⟩])) :=
  ⟨by decide,
    (c9_extraction_failures_recovered _ (by decide)).1,
    (c9_extraction_failures_recovered _ (by decide)).2 (.ok [])⟩

/-! ## Endpoint validation -/

/-- C10: the `/search` endpoint validates before invoking the encoder: a
missing or empty query, or a `k` below 1 or above 100, is rejected with a
validation error and zero encoder invocations; a valid query with `k`
omitted runs once with the default `k = 10`. -/
theorem c10_search_validation (V : Type) (f : List Char → ℤ → V)
    (query : Option (List Char)) (k : Option ℤ) :
    ((query = none ∨ query = some [] ∨
        (∃ kv, k = some kv ∧ (kv < 1 ∨ 100 < kv))) →
      searchEndpoint f query k = (.error (), 0)) ∧
    (∀ q, query = some q → q ≠ [] → k = none →
      searchEndpoint f query k = (.ok (f q 10), 1)) := by
  constructor
  · rintro (rfl | rfl | ⟨kv, rfl, hkv⟩)
    · rfl
    · rfl
    · unfold searchEndpoint validateSearch
      cases query with
      | none => rfl
      | some q =>
        dsimp only
        by_cases hq : q.length < 1
        · rw [if_pos hq]
        · rw [if_neg hq, if_pos hkv]
  · rintro q rfl hq rfl
    unfold searchEndpoint validateSearch
    dsimp only
    have hlen : ¬ q.length < 1 := by
      have : q.length ≠ 0 := fun h2 => hq (List.eq_nil_of_length_eq_zero h2)
      omega
    rw [if_neg hlen]

/-- Witness for `c10_search_validation`: an out-of-range `k` is rejected,
and an omitted `k` defaults to 10. -/
theorem c10_search_validation_witness :
    searchEndpoint (fun q k => (q, k)) (some ['h']) (some 200) =
      (.error (), 0) ∧
    searchEndpoint (fun q k => (q, k)) (some ['h']) none =
      (.ok ((['h'], 10) : List Char × ℤ), 1) :=
  ⟨(c10_search_validation (List Char × ℤ) (fun q k => (q, k)) (some ['h'])
      (some 200)).1 (Or.inr (Or.inr ⟨200, rfl, by decide⟩)),
    (c10_search_validation (List Char × ℤ) (fun q k => (q, k)) (some ['h'])
      none).2 ['h'] rfl (by decide) rfl⟩
